import Mathlib

/-!
Verification of the markdown-to-HTML generator core (`src/lib.rs`).

Strings are modelled as `List Char`; Rust's `str::replace` (replace all
non-overlapping occurrences, scanning left to right) is modelled by `rep`,
and the sanitizer is the ordered rule list applied sequentially, exactly as
in the source.  All definitions are executable; side conditions of the
generic rewriting lemmas are decidable and discharged by `decide`.
-/

namespace Statgen

abbrev L := List Char

/-- Turn a string literal into the `List Char` model. -/
def lc (s : String) : L := s.data

/-- `leads p s`: `p` is a prefix of `s` (executable). -/
def leads : L → L → Bool
  | [], _ => true
  | _ :: _, [] => false
  | a :: as, b :: bs => a == b && leads as bs

/-- `trails x s`: `x` is a suffix of `s` (executable). -/
def trails (x s : L) : Bool := leads x.reverse s.reverse

/-- `occursB q s`: `q` occurs as a contiguous substring of `s` (executable). -/
def occursB (q : L) : L → Bool
  | [] => q == []
  | c :: cs => leads q (c :: cs) || occursB q cs

/-- Fueled engine for `str::replace`; the fuel is the length of the input. -/
def repF (p r : L) : Nat → L → L
  | _, [] => []
  | 0, s => s
  | Nat.succ n, c :: cs =>
    if leads p (c :: cs) then r ++ repF p r n (List.drop (p.length - 1) cs)
    else c :: repF p r n cs

/-- Rust's `str::replace p r`: replace every non-overlapping occurrence of
`p` by `r`, scanning left to right.  (The source never calls it with an
empty pattern; we make that case the identity.) -/
def rep (p r s : L) : L := if p = [] then s else repF p r s.length s

/-- Join a list of chunks with a separator (`List.intercalate`, recursively). -/
def jn (sep : L) : List L → L
  | [] => []
  | [c] => c
  | c :: cs => c ++ sep ++ jn sep cs

/-- Decidable boundary conditions for occurrence preservation:
a split of `q` that could be assembled across a replacement boundary on the
`r` side must be assemblable across the same boundary on the `p` side. -/
def splitsOK (q p r : L) : Bool :=
  (List.range q.length).all fun k =>
    k == 0 ||
    ((!leads (List.drop k q) r || leads (List.drop k q) p) &&
     (!trails (List.take k q) r || trails (List.take k q) p))

def topOK (q p r : L) : Bool := !occursB q r && !occursB r q && splitsOK q p r

/-- Decidable conditions under which a rule's own pattern cannot occur in
its output: `p` does not occur in `r` and vice versa, no nonempty proper
prefix of `p` is a suffix of `r`, and every suffix of `p` that is a prefix
of `r` is also a prefix of `p`. -/
def selfOK (p r : L) : Bool :=
  !occursB p r && !occursB r p &&
  ((List.range p.length).all fun k => k == 0 || !trails (List.take k p) r) &&
  ((List.range (p.length + 1)).all fun k =>
    !leads (List.drop k p) r || leads (List.drop k p) p)

/-- Decidable conditions under which a rule cannot destroy an occurrence of
`q`: `q` and `p` do not contain each other, no nonempty proper prefix of `q`
is a suffix of `p`, and every suffix of `q` that is a prefix of `p` is also
a prefix of `r`. -/
def survOK (q p r : L) : Bool :=
  !occursB q p && !occursB p q &&
  ((List.range q.length).all fun k => k == 0 || !trails (List.take k q) p) &&
  ((List.range (q.length + 1)).all fun k =>
    !leads (List.drop k q) p || leads (List.drop k q) r)

/-- The sequential application of an ordered rule list, exactly as the
source applies its `replace` calls one after another. -/
def applyRules (rs : List (L × L)) (s : L) : L :=
  rs.foldl (fun acc pr => rep pr.1 pr.2 acc) s

/-! ## The sanitizer (`sanitize_html` in `src/lib.rs`) -/

def dangerous_tags : List String :=
  ["script", "iframe", "object", "embed", "form", "meta", "link", "style"]

/-- The per-tag pair of rewrites of the `for tag in &dangerous_tags` loop:
`<tag → &lt;tag` then `</tag → &lt;/tag`. -/
def tagRules : List (L × L) :=
  (dangerous_tags.map fun t =>
    [(lc ("<" ++ t), lc ("&lt;" ++ t)), (lc ("</" ++ t), lc ("&lt;/" ++ t))]).flatten

/-- The three URL-scheme rewrites. -/
def schemeRules : List (L × L) :=
  [(lc "javascript:", lc "javascript&colon;"),
   (lc "vbscript:", lc "vbscript&colon;"),
   (lc "data:", lc "data&colon;")]

/-- The seven space-prefixed event-handler rewrites. -/
def eventRules : List (L × L) :=
  [(lc " onclick", lc " on&click"), (lc " onload", lc " on&load"),
   (lc " onmouseover", lc " on&mouseover"), (lc " onmouseout", lc " on&mouseout"),
   (lc " onkeydown", lc " on&keydown"), (lc " onkeyup", lc " on&keyup"),
   (lc " onsubmit", lc " on&submit")]

/-- The input-element block: escape every `<input`, then re-admit the two
disabled-checkbox forms. -/
def inputRules : List (L × L) :=
  [(lc "<input", lc "&lt;input"),
   (lc "&lt;input disabled", lc "<input disabled"),
   (lc "&lt;input type=\"checkbox\" disabled", lc "<input type=\"checkbox\" disabled")]

/-- The full ordered rule list of `sanitize_html`. -/
def sanitizeRules : List (L × L) := tagRules ++ schemeRules ++ eventRules ++ inputRules

/-- `sanitize_html` from `src/lib.rs`: the ordered rule list applied
sequentially over the whole text. -/
def sanitize_html (s : L) : L := applyRules sanitizeRules s

/-- The 26 rules that precede the input-element block. -/
def frontRules : List (L × L) := tagRules ++ schemeRules ++ eventRules

/-- Decidable well-formedness of an ordered rule list: each rule satisfies
`selfOK` and each later rule cannot re-create an earlier rule's pattern. -/
def chainOK : List (L × L) → Bool
  | [] => true
  | (p, r) :: rest =>
    !(p == []) && selfOK p r &&
    (rest.all fun pr => !(pr.1 == []) && topOK p pr.1 pr.2) && chainOK rest

/-- `<input` -/
def inQ : L := lc "<input"

/-- `&lt;input` -/
def inE : L := lc "&lt;input"

/-- ` disabled` -/
def disL : L := lc " disabled"

/-- ` type="checkbox" disabled` -/
def typL : L := lc " type=\"checkbox\" disabled"

/-- The input-element block of the sanitizer: escape every `<input`, then
re-admit the two disabled forms. -/
def T3 (o : L) : L :=
  rep (inE ++ typL) (inQ ++ typL) (rep (inE ++ disL) (inQ ++ disL) (rep inQ inE o))

/-- The tail part of a separator join: `sep ++ d₁ ++ sep ++ d₂ ++ ⋯`. -/
def sepJoin (sep : L) : List L → L
  | [] => []
  | d :: ds => sep ++ d ++ sepJoin sep ds

/-- Every occurrence of `<input` is immediately followed by ` disabled` or
by ` type="checkbox" disabled` — the shape of the sanitizer's output. -/
def Ctrl (o : L) : Prop := ∀ u v, o = u ++ inQ ++ v → disL <+: v ∨ typL <+: v

/-- Every occurrence of `<input` is immediately followed by ` disabled` —
the shape right after the first re-admission rule. -/
def CtrlA (o : L) : Prop := ∀ u v, o = u ++ inQ ++ v → disL <+: v

/-- The shape of the text after escaping and the first re-admission: chunks
joined by `<input` where the chunk starts with ` disabled`, and by
`&lt;input` otherwise. -/
def mixJoin : List L → L
  | [] => []
  | d :: ds => (if leads disL d = true then inQ else inE) ++ d ++ mixJoin ds

/-- Decidable conditions for an escaped form to be introduced and to
survive: the rules before the escaping rule cannot destroy `pat`, the rules
after it cannot destroy `esc`. -/
def escOK (pat esc : L) (rs₁ rs₂ : List (L × L)) : Bool :=
  !(pat == []) && !(esc == []) &&
  rs₁.all (fun pr => !(pr.1 == []) && survOK pat pr.1 pr.2) &&
  rs₂.all (fun pr => !(pr.1 == []) && survOK esc pr.1 pr.2)


/-! ## Escape normalizer, color validator, title extractor
(`unescape_newlines`, `validate_color`, `extract_title` in `src/lib.rs`) -/

/-- Rust `char::is_whitespace`: the Unicode White_Space property. -/
def isWS (c : Char) : Bool :=
  let n := c.toNat
  (9 ≤ n && n ≤ 13) || n == 32 || n == 0x85 || n == 0xA0 || n == 0x1680 ||
  (0x2000 ≤ n && n ≤ 0x200A) || n == 0x2028 || n == 0x2029 || n == 0x202F ||
  n == 0x205F || n == 0x3000

/-- Split on the newline character, keeping every segment. -/
def splitNl : L → List L
  | [] => [[]]
  | c :: cs =>
    if c = '\n' then [] :: splitNl cs
    else
      match splitNl cs with
      | [] => [[c]]
      | d :: ds => (c :: d) :: ds

/-- Strip one trailing carriage return. -/
def stripCr (l : L) : L := if l.getLast? = some '\r' then l.dropLast else l

/-- Rust `str::lines`: split at each newline; a segment that was terminated
by a newline loses one trailing carriage return; a trailing empty segment
(from a final newline) is dropped; a final unterminated segment is kept
as is. -/
def rustLines (s : L) : List L :=
  let parts := splitNl s
  (parts.dropLast.map stripCr) ++
    (match parts.getLast? with
     | some [] => []
     | some l => [l]
     | none => [])

/-- Rust `str::trim` (charwise on the White_Space property). -/
def trim (l : L) : L := ((l.dropWhile isWS).reverse.dropWhile isWS).reverse

/-- The per-line heading repair of `unescape_newlines`: a line whose
start-trimmed form begins with `#`, does not begin with `# `, and has
length greater than one is rewritten to the `#`-run, one space, and the
start-trimmed rest. -/
def fixHeading (line : L) : L :=
  let t := line.dropWhile isWS
  if leads (lc "#") t && !leads (lc "# ") t && decide (1 < t.length) then
    lc "#" ++ List.replicate ((t.takeWhile (fun c => c == '#')).length - 1) '#' ++
      lc " " ++ (List.drop (t.takeWhile (fun c => c == '#')).length t).dropWhile isWS
  else line

/-- The six ordered `replace` calls of `unescape_newlines`. -/
def repPhase (s : L) : L :=
  rep (lc "\n ") (lc "\n")
    (rep (lc " \n") (lc "\n")
      (rep (lc "\\\\") (lc "\\")
        (rep (lc "\\r") (lc "\r")
          (rep (lc "\\t") (lc "\t")
            (rep (lc "\\n") (lc "\n") s)))))

/-- `unescape_newlines` from `src/lib.rs`: the six replaces, then the
line-by-line heading repair, re-joined with newlines. -/
def unescape_newlines (s : L) : L :=
  jn (lc "\n") ((rustLines (repPhase s)).map fixHeading)

/-- Rust `char::is_ascii_hexdigit`. -/
def isHexDig (c : Char) : Bool :=
  ('0' ≤ c && c ≤ '9') || ('a' ≤ c && c ≤ 'f') || ('A' ≤ c && c ≤ 'F')

/-- ASCII lowercasing: the action of Rust's `str::to_lowercase` on ASCII
characters.  The full `str::to_lowercase` is a Unicode-table-driven function
of the standard library (with a context-sensitive rule for the final Greek
sigma); `validate_color` below is therefore parameterised by it, like the
external crates, and the theorems assume of it only what is stated through
`lowerAscii` on ASCII tokens. -/
def lowerAscii (c : Char) : Char :=
  if 'A' ≤ c && c ≤ 'Z' then Char.ofNat (c.toNat + 32) else c

/-- UTF-8 byte length of a string (Rust's `str::len`). -/
def utf8Len (l : L) : Nat := (l.map Char.utf8Size).sum

/-- Every character of the string is ASCII. -/
def asciiOnly (l : L) : Bool := l.all fun c => decide (c.toNat < 128)

/-- The fixed named-color list of `validate_color`. -/
def named_colors : List String :=
  ["red", "orange", "yellow", "green", "blue", "purple", "pink", "brown",
   "black", "white", "gray", "grey", "cyan", "magenta", "lime", "navy",
   "teal", "maroon", "olive", "silver", "aqua", "fuchsia", "indigo",
   "violet", "gold", "coral", "salmon", "crimson", "tomato"]

/-- `validate_color` from `src/lib.rs`, parameterised by the external
Unicode lowercasing `lower` (Rust's `str::to_lowercase`): a `#`-prefixed
token must have 3, 4, 6 or 8 bytes after the `#` (the source measures
`hex_part.len()` in bytes), all ASCII hex digits; anything else must
lowercase to a named color; every failure carries the offending token in
its message. -/
def validate_color (lower : L → L) (color : L) : Except L Unit :=
  match color with
  | '#' :: hex =>
    if utf8Len hex = 3 ∨ utf8Len hex = 4 ∨ utf8Len hex = 6 ∨ utf8Len hex = 8 then
      if hex.all isHexDig then Except.ok ()
      else Except.error (lc "Invalid hex color: " ++ color)
    else Except.error (lc "Invalid hex color length: " ++ color)
  | _ =>
    if (named_colors.map lc).contains (lower color) then Except.ok ()
    else
      Except.error (lc "Invalid color: " ++ color ++
        lc ". Use hex codes (#ff0000) or named colors (red, blue, etc)")

/-- `extract_title` from `src/lib.rs`: the first line whose trimmed form
starts with `# ` yields the trimmed remainder. -/
def extract_title (md : L) : Option L :=
  (rustLines md).findSome? fun line =>
    let t := trim line
    if leads (lc "# ") t then some (trim (List.drop 2 t)) else none

/-! ## Document assembly (`generate_html` in `src/lib.rs`)

The markdown renderer (`pulldown_cmark`) and the percent encoder
(`urlencoding::encode`) are external crates; `generate_html` is therefore
parameterised by them.  The template literals below are the rendered chunks
of the source's `format!` templates, split at the interpolation slots. -/

/-- Favicon link text before the encoded emoji. -/
def favPre : L := lc "<link rel=\"icon\" href=\"data:image/svg+xml,<svg xmlns=%22http://www.w3.org/2000/svg%22 viewBox=%220 0 100 100%22><text y=%22.9em%22 font-size=%2290%22>"

/-- Favicon link text after the encoded emoji. -/
def favPost : L := lc "</text></svg>\">"

/-- Theme-switching script up to the dark accent slot. -/
def scrA : L := lc "<script>\n        function applyTheme(theme) \x7b\n            const root = document.documentElement;\n            if (theme === 'dark') \x7b\n                root.style.setProperty('--bg-color', '#1a1a1a');\n                root.style.setProperty('--text-color', '#e0e0e0');\n                root.style.setProperty('--header-color', '#ffffff');\n                root.style.setProperty('--code-bg', '#2d2d2d');\n                root.style.setProperty('--code-color', '#cccccc');\n                root.style.setProperty('--link-color', '"

/-- Theme-switching script between the accent slots. -/
def scrB : L := lc "');\n                root.style.setProperty('--blockquote-bg', '#2a2a2a');\n                root.style.setProperty('--border-color', '#404040');\n            \x7d else \x7b\n                root.style.setProperty('--bg-color', '#f4f4f4');\n                root.style.setProperty('--text-color', '#333');\n                root.style.setProperty('--header-color', '#2c3e50');\n                root.style.setProperty('--code-bg', '#e7e7e7');\n                root.style.setProperty('--code-color', '#333');\n                root.style.setProperty('--link-color', '"

/-- Theme-switching script after the light accent slot. -/
def scrC : L := lc "');\n                root.style.setProperty('--blockquote-bg', '#f9f9f9');\n                root.style.setProperty('--border-color', '#e0e0e0');\n            \x7d\n        \x7d\n\n        // Detect system theme\n        const prefersDark = window.matchMedia('(prefers-color-scheme: dark)').matches;\n        applyTheme(prefersDark ? 'dark' : 'light');\n\n        // Listen for changes\n        window.matchMedia('(prefers-color-scheme: dark)').addEventListener('change', (e) => \x7b\n            applyTheme(e.matches ? 'dark' : 'light');\n        \x7d);\n        </script>"

/-- CSS-variable block chunk 0. -/
def cssv0 : L := lc "--bg-color: "

/-- CSS-variable block chunk 1. -/
def cssv1 : L := lc "; --text-color: "

/-- CSS-variable block chunk 2. -/
def cssv2 : L := lc "; --header-color: "

/-- CSS-variable block chunk 3. -/
def cssv3 : L := lc "; --code-bg: "

/-- CSS-variable block chunk 4. -/
def cssv4 : L := lc "; --code-color: "

/-- CSS-variable block chunk 5. -/
def cssv5 : L := lc "; --link-color: "

/-- CSS-variable block chunk 6. -/
def cssv6 : L := lc "; --blockquote-bg: "

/-- CSS-variable block chunk 7. -/
def cssv7 : L := lc "; --border-color: "

/-- CSS-variable block chunk 8. -/
def cssv8 : L := lc ";"

/-- Document template up to the title. -/
def tplA : L := lc "<!DOCTYPE html>\n<html lang=\"en\">\n<head>\n    <meta charset=\"UTF-8\">\n    <meta name=\"viewport\" content=\"width=device-width, initial-scale=1.0\">\n    <title>"

/-- Document template between title and favicon link. -/
def tplB : L := lc "</title>\n    "

/-- Document template between favicon link and the CSS-variable block. -/
def tplC : L := lc "\n    <style>\n        :root \x7b\n            "

/-- Document template between CSS variables and the font family. -/
def tplD : L := lc ";\n            --shadow: 0 2px 8px rgba(0, 0, 0, 0.1);\n        \x7d\n\n        * \x7b\n            box-sizing: border-box;\n            margin: 0;\n            padding: 0;\n        \x7d\n\n        body \x7b\n            font-family: "

/-- Document template between font family and font size. -/
def tplE : L := lc ";\n            font-size: "

/-- Document template between font size and the theme script. -/
def tplF : L := lc ";\n            line-height: 1.6;\n            color: var(--text-color);\n            background-color: var(--bg-color);\n            transition: background-color 0.3s ease, color 0.3s ease;\n            -webkit-font-smoothing: antialiased;\n            -moz-osx-font-smoothing: grayscale;\n            text-rendering: optimizeLegibility;\n            height: 100%;\n        \x7d\n\n        .container \x7b\n            width: 100%;\n            padding: 3rem 2rem;\n            display: flex;\n            justify-content: flex-start;\n        \x7d\n\n        .content \x7b\n            text-align: left;\n            width: 100%;\n        \x7d\n\n        h1, h2, h3, h4, h5, h6 \x7b\n            color: var(--header-color);\n            font-weight: 600;\n            line-height: 1.3;\n            margin-top: 3rem;\n            margin-bottom: 1.5rem;\n        \x7d\n\n        h1 \x7b\n            font-size: 2.8rem;\n            font-weight: 700;\n            text-align: center;\n            margin-bottom: 4rem;\n            padding-bottom: 1.5rem;\n            border-bottom: 2px solid var(--link-color);\n        \x7d\n\n        h2 \x7b\n            font-size: 1.8rem;\n            margin-top: 3rem;\n            padding-bottom: 0.5rem;\n            border-bottom: 1px solid var(--border-color);\n        \x7d\n\n        h3 \x7b\n            font-size: 1.5rem;\n            color: var(--link-color);\n        \x7d\n\n        h4 \x7b\n            font-size: 1.25rem;\n        \x7d\n\n        h5 \x7b\n            font-size: 1.1rem;\n        \x7d\n\n        h6 \x7b\n            font-size: 1rem;\n            color: var(--code-color);\n        \x7d\n\n        p \x7b\n            margin-bottom: 2rem;\n            text-align: left;\n            line-height: 1.7;\n        \x7d\n\n        ul, ol \x7b\n            margin-bottom: 2rem;\n            padding-left: 2rem;\n        \x7d\n\n        li \x7b\n            margin-bottom: 0.75rem;\n            line-height: 1.6;\n        \x7d\n\n        blockquote \x7b\n            border-left: 4px solid var(--link-color);\n            padding: 1.5rem 2rem;\n            margin: 3rem 0;\n            background-color: var(--blockquote-bg);\n            font-style: italic;\n            border-radius: 0 8px 8px 0;\n        \x7d\n\n        code \x7b\n            background-color: var(--code-bg);\n            color: var(--code-color);\n            padding: 0.2rem 0.4rem;\n            border-radius: 3px;\n            font-family: 'SF Mono', Monaco, 'Cascadia Code', 'Roboto Mono', Consolas, 'Courier New', monospace;\n            font-size: 0.9em;\n        \x7d\n\n        pre \x7b\n            background-color: var(--code-bg);\n            padding: 2rem;\n            border-radius: 8px;\n            overflow-x: auto;\n            margin: 3rem 0;\n            border: 1px solid var(--border-color);\n            box-shadow: 0 2px 8px rgba(0, 0, 0, 0.1);\n        \x7d\n\n        pre code \x7b\n            background-color: transparent;\n            padding: 0;\n        \x7d\n\n        table \x7b\n            width: 100%;\n            border-collapse: collapse;\n            margin: 3rem 0;\n            background-color: var(--blockquote-bg);\n            border-radius: 8px;\n            overflow: hidden;\n            box-shadow: 0 2px 8px rgba(0, 0, 0, 0.1);\n        \x7d\n\n        th, td \x7b\n            padding: 1rem 1.25rem;\n            text-align: left;\n            border-bottom: 1px solid var(--border-color);\n        \x7d\n\n        th \x7b\n            background-color: var(--code-bg);\n            color: var(--header-color);\n            font-weight: 600;\n            text-transform: uppercase;\n            font-size: 0.8rem;\n            letter-spacing: 0.05em;\n        \x7d\n\n        tr:nth-child(even) \x7b\n            background-color: var(--bg-color);\n        \x7d\n\n        a \x7b\n            color: var(--link-color);\n            text-decoration: none;\n            transition: color 0.2s ease;\n            will-change: color;\n        \x7d\n\n        a:hover \x7b\n            color: var(--text-color);\n            text-decoration: underline;\n        \x7d\n\n        hr \x7b\n            border: none;\n            height: 2px;\n            background: linear-gradient(90deg, transparent, var(--border-color), transparent);\n            margin: 3rem 0;\n        \x7d\n\n        img \x7b\n            max-width: 100%;\n            height: auto;\n            border-radius: 8px;\n            margin: 3rem 0;\n            box-shadow: 0 2px 12px rgba(0, 0, 0, 0.15);\n        \x7d\n\n        .footnote \x7b\n            font-size: 0.85rem;\n            color: var(--code-color);\n        \x7d\n\n        /* Responsive design */\n        @media (max-width: 768px) \x7b\n            .container \x7b\n                padding: 1.5rem 1rem;\n            \x7d\n\n            h1 \x7b\n                font-size: 2.2rem;\n                margin-bottom: 2.5rem;\n            \x7d\n\n            h2 \x7b\n                font-size: 1.6rem;\n            \x7d\n\n            p \x7b\n                margin-bottom: 1.5rem;\n                line-height: 1.6;\n            \x7d\n\n            pre \x7b\n                padding: 1.25rem;\n                margin: 2rem 0;\n            \x7d\n\n            blockquote \x7b\n                padding: 1rem 1.25rem;\n                margin: 2rem 0;\n            \x7d\n        \x7d\n    </style>\n    "

/-- Document template between theme script and the body. -/
def tplG : L := lc "\n</head>\n<body>\n    <div class=\"container\">\n        <div class=\"content\">\n            "

/-- Document template after the body. -/
def tplH : L := lc "\n        </div>\n    </div>\n</body>\n</html>"

/-- The theme palette match of `generate_html` (background, text, header,
code background, code text, blockquote background, border). -/
def theme_palette (theme : L) : L × L × L × L × L × L × L :=
  if theme = lc "dark" then
    (lc "#1a1a1a", lc "#e0e0e0", lc "#ffffff", lc "#2d2d2d", lc "#cccccc",
     lc "#2a2a2a", lc "#404040")
  else if theme = lc "auto" then
    (lc "#f4f4f4", lc "#333", lc "#2c3e50", lc "#e7e7e7", lc "#333",
     lc "#f9f9f9", lc "#e0e0e0")
  else
    (lc "#f4f4f4", lc "#333", lc "#2c3e50", lc "#e7e7e7", lc "#333",
     lc "#f9f9f9", lc "#e0e0e0")

/-- The theme-switching script of `generate_html`: present exactly for the
`auto` theme, with the dark accent and then the light accent interpolated. -/
def theme_script (theme accent : L) (accent_light accent_dark : Option L) : L :=
  if theme = lc "auto" then
    scrA ++ accent_dark.getD accent ++ scrB ++ accent_light.getD accent ++ scrC
  else []

/-- The favicon link of `generate_html`, parameterised by the external
percent encoder. -/
def favicon_link (urlenc : L → L) (favicon : Option L) : L :=
  match favicon with
  | some emoji => favPre ++ urlenc emoji ++ favPost
  | none => []

/-- The CSS-variable block of `generate_html`. -/
def css_variables (theme accent : L) : L :=
  match theme_palette theme with
  | (bg, txt, hdr, cbg, ctx, bq, bd) =>
    cssv0 ++ bg ++ cssv1 ++ txt ++ cssv2 ++ hdr ++ cssv3 ++ cbg ++ cssv4 ++
      ctx ++ cssv5 ++ accent ++ cssv6 ++ bq ++ cssv7 ++ bd ++ cssv8

/-- `generate_html` from `src/lib.rs`, parameterised by the external
markdown renderer and percent encoder: renders, sanitizes, extracts the
title (default `Static Site`), and fills the fixed document template. -/
def generate_html (render urlenc : L → L) (markdown font_size font theme accent : L)
    (accent_light accent_dark favicon : Option L) : L :=
  let flink := favicon_link urlenc favicon
  let sanitized_output := sanitize_html (render markdown)
  let title := (extract_title markdown).getD (lc "Static Site")
  let script := theme_script theme accent accent_light accent_dark
  let cssv := css_variables theme accent
  tplA ++ title ++ tplB ++ flink ++ tplC ++ cssv ++ tplD ++ font ++ tplE ++
    font_size ++ tplF ++ script ++ tplG ++ sanitized_output ++ tplH


instance : DecidableEq (Except L Unit) := fun a b =>
  match a, b with
  | Except.ok (), Except.ok () => isTrue rfl
  | Except.ok (), Except.error _ => isFalse fun h => Except.noConfusion h
  | Except.error _, Except.ok () => isFalse fun h => Except.noConfusion h
  | Except.error e₁, Except.error e₂ =>
    if h : e₁ = e₂ then isTrue (by rw [h]) else isFalse fun hh => h (by injection hh)

/-- The fixed dark-palette assignments of the switching script. -/
def darkVars : L := lc "root.style.setProperty('--bg-color', '#1a1a1a');\n                root.style.setProperty('--text-color', '#e0e0e0');\n                root.style.setProperty('--header-color', '#ffffff');\n                root.style.setProperty('--code-bg', '#2d2d2d');\n                root.style.setProperty('--code-color', '#cccccc');"

/-- The fixed light-palette assignments of the switching script. -/
def lightVars : L := lc "root.style.setProperty('--bg-color', '#f4f4f4');\n                root.style.setProperty('--text-color', '#333');\n                root.style.setProperty('--header-color', '#2c3e50');\n                root.style.setProperty('--code-bg', '#e7e7e7');\n                root.style.setProperty('--code-color', '#333');"

/-- Spec-worded acceptance condition of the color validator: a hex token
(`#` plus 3, 4, 6 or 8 hex digits) or a case-insensitive match (via the
same Unicode lowercasing) against the fixed named-color set. -/
def validateColorSpec (lower : L → L) (color : L) : Bool :=
  (leads (lc "#") color &&
    (((List.drop 1 color).length == 3 || (List.drop 1 color).length == 4 ||
      (List.drop 1 color).length == 6 || (List.drop 1 color).length == 8) &&
     (List.drop 1 color).all isHexDig)) ||
  (named_colors.map lc).contains (lower color)

/-! ## Totality (C9) -/

/-- `fixHeading` with explicit guards at the two partial operations of the
source (the `header_level - 1` subtraction and the `[header_level..]` slice):
`none` would mean a panic. -/
def fixHeadingChecked (line : L) : Option L :=
  if leads (lc "#") (line.dropWhile isWS) && !leads (lc "# ") (line.dropWhile isWS) &&
      decide (1 < (line.dropWhile isWS).length) then
    if 1 ≤ ((line.dropWhile isWS).takeWhile (fun c => c == '#')).length ∧
        ((line.dropWhile isWS).takeWhile (fun c => c == '#')).length ≤
          (line.dropWhile isWS).length then
      some (lc "#" ++
        List.replicate
          ((((line.dropWhile isWS).takeWhile (fun c => c == '#')).length) - 1) '#' ++
        lc " " ++
        (List.drop (((line.dropWhile isWS).takeWhile (fun c => c == '#')).length)
          (line.dropWhile isWS)).dropWhile isWS)
    else none
  else some line

/-- `unescape_newlines` with the per-line guards threaded through. -/
def unescape_newlinesChecked (s : L) : Option L :=
  ((rustLines (repPhase s)).mapM fixHeadingChecked).map (jn (lc "\n"))

/-- The condition on the line split under which the rejoined output ends in a
newline: a final empty segment, at least two remaining segments, and an empty
or CR-only segment just before the final newline. -/
abbrev endQ (ps : List L) : Prop :=
  ps.getLast? = some [] ∧ 2 ≤ ps.dropLast.length ∧
    (ps.dropLast.getLast? = some [] ∨ ps.dropLast.getLast? = some ['\r'])

theorem leads_iff {p s : L} : leads p s = true ↔ p <+: s := by
  induction p generalizing s with
  | nil => simp [leads]
  | cons a as ih =>
    cases s with
    | nil => simp [leads]
    | cons b bs =>
      simp only [leads, Bool.and_eq_true, beq_iff_eq]
      constructor
      · rintro ⟨rfl, h⟩
        exact List.cons_prefix_cons.mpr ⟨rfl, ih.mp h⟩
      · intro h
        rcases List.cons_prefix_cons.mp h with ⟨rfl, h2⟩
        exact ⟨rfl, ih.mpr h2⟩

theorem trails_iff {x s : L} : trails x s = true ↔ x <:+ s := by
  unfold trails
  rw [leads_iff]
  exact List.reverse_prefix

theorem occursB_iff {q s : L} : occursB q s = true ↔ q <:+: s := by
  induction s with
  | nil =>
    simp only [occursB, beq_iff_eq]
    constructor
    · rintro rfl; exact List.infix_refl []
    · intro h; exact List.eq_nil_of_infix_nil h
  | cons c cs ih =>
    simp only [occursB, Bool.or_eq_true, leads_iff, ih]
    rw [List.infix_cons_iff]

theorem leads_of_append (p b : L) : leads p (p ++ b) = true :=
  leads_iff.mpr ⟨b, rfl⟩

theorem repF_fuel (p r : L) :
    ∀ n m s, s.length ≤ n → s.length ≤ m → repF p r n s = repF p r m s := by
  intro n
  induction n with
  | zero =>
    intro m s hn _
    have : s = [] := List.eq_nil_of_length_eq_zero (Nat.le_zero.mp hn)
    subst this
    cases m <;> rfl
  | succ n ih =>
    intro m s hn hm
    cases s with
    | nil => cases m <;> rfl
    | cons c cs =>
      cases m with
      | zero => simp at hm
      | succ m =>
        have hcs : cs.length ≤ n := by simpa using hn
        have hcs' : cs.length ≤ m := by simpa using hm
        have hd : (List.drop (p.length - 1) cs).length ≤ n := by
          rw [List.length_drop]; omega
        have hd' : (List.drop (p.length - 1) cs).length ≤ m := by
          rw [List.length_drop]; omega
        simp only [repF]
        split
        · rw [ih m _ hd hd']
        · rw [ih m _ hcs hcs']

theorem rep_nil (p r : L) : rep p r [] = [] := by
  unfold rep
  split <;> rfl

theorem rep_cons_pos {p : L} (r : L) {c : Char} {cs : L} (hp : p ≠ [])
    (h : leads p (c :: cs) = true) :
    rep p r (c :: cs) = r ++ rep p r (List.drop (p.length - 1) cs) := by
  unfold rep
  rw [if_neg hp, if_neg hp]
  have h1 : (c :: cs).length = cs.length + 1 := rfl
  rw [h1]
  show repF p r (Nat.succ cs.length) (c :: cs) = _
  simp only [repF, h, if_pos]
  congr 1
  exact repF_fuel p r cs.length _ _ (by rw [List.length_drop]; omega) le_rfl

theorem rep_cons_neg {p : L} (r : L) {c : Char} {cs : L} (hp : p ≠ [])
    (h : leads p (c :: cs) = false) :
    rep p r (c :: cs) = c :: rep p r cs := by
  unfold rep
  rw [if_neg hp, if_neg hp]
  have h1 : (c :: cs).length = cs.length + 1 := rfl
  rw [h1]
  show repF p r (Nat.succ cs.length) (c :: cs) = _
  simp only [repF, h]
  rfl

theorem rep_head_match {p : L} (r : L) (b : L) (hp : p ≠ []) :
    rep p r (p ++ b) = r ++ rep p r b := by
  cases p with
  | nil => exact absurd rfl hp
  | cons a as =>
    have h : leads (a :: as) ((a :: as) ++ b) = true := leads_of_append _ _
    rw [List.cons_append] at h ⊢
    rw [rep_cons_pos r hp h]
    congr 2
    have : (a :: as).length - 1 = as.length := by simp
    rw [this, List.drop_left]

theorem jn_cons₂ (sep c d : L) (ds : List L) :
    jn sep (c :: d :: ds) = c ++ sep ++ jn sep (d :: ds) := rfl

theorem jn_cons_ne {sep c : L} {cs : List L} (h : cs ≠ []) :
    jn sep (c :: cs) = c ++ sep ++ jn sep cs := by
  cases cs with
  | nil => exact absurd rfl h
  | cons d ds => rfl

/-- `rep` decomposes the input into the chunks between the replaced
occurrences: `s` is the chunks joined by `p`, the output is the same chunks
joined by `r`, and no chunk contains `p`. -/
theorem rep_decomp {p : L} (r : L) (hp : p ≠ []) :
    ∀ n s, s.length ≤ n →
      ∃ cs : List L, cs ≠ [] ∧ s = jn p cs ∧ rep p r s = jn r cs ∧
        ∀ c ∈ cs, ¬ p <:+: c := by
  intro n
  induction n with
  | zero =>
    intro s hs
    have : s = [] := List.eq_nil_of_length_eq_zero (Nat.le_zero.mp hs)
    subst this
    refine ⟨[[]], by simp, rfl, by rw [rep_nil]; rfl, ?_⟩
    intro c hc h
    simp only [List.mem_singleton] at hc
    subst hc
    exact hp (List.eq_nil_of_infix_nil h)
  | succ n ih =>
    intro s hs
    cases s with
    | nil =>
      refine ⟨[[]], by simp, rfl, by rw [rep_nil]; rfl, ?_⟩
      intro c hc h
      simp only [List.mem_singleton] at hc
      subst hc
      exact hp (List.eq_nil_of_infix_nil h)
    | cons c cs₀ =>
      by_cases h : leads p (c :: cs₀) = true
      · obtain ⟨t, ht⟩ := leads_iff.mp h
        have hrep : rep p r (c :: cs₀) = r ++ rep p r t := by
          rw [rep_cons_pos r hp h]
          congr 2
          have h1 : List.drop (p.length - 1) cs₀ = List.drop p.length (c :: cs₀) := by
            cases p with
            | nil => exact absurd rfl hp
            | cons a as => simp
          rw [h1, ← ht, List.drop_left]
        have hlen : t.length ≤ n := by
          have h2 : (c :: cs₀).length = p.length + t.length := by rw [← ht]; simp
          have h3 : 1 ≤ p.length := by
            cases p with
            | nil => exact absurd rfl hp
            | cons a as => simp
          simp only [List.length_cons] at hs h2
          omega
        obtain ⟨cs', hne, hjp, hjr, hch⟩ := ih t hlen
        refine ⟨[] :: cs', by simp, ?_, ?_, ?_⟩
        · rw [jn_cons_ne hne, ← hjp, ← ht]; simp
        · rw [hrep, jn_cons_ne hne, ← hjr]; simp
        · intro d hd
          rcases List.mem_cons.mp hd with rfl | hd'
          · intro hocc; exact hp (List.eq_nil_of_infix_nil hocc)
          · exact hch d hd'
      · have h' : leads p (c :: cs₀) = false := by
          cases h2 : leads p (c :: cs₀) with
          | true => exact absurd h2 h
          | false => rfl
        have hrep := @rep_cons_neg p r _ _ hp h'
        have hlen : cs₀.length ≤ n := by simpa using hs
        obtain ⟨cs', hne, hjp, hjr, hch⟩ := ih cs₀ hlen
        cases cs' with
        | nil => exact absurd rfl hne
        | cons d ds =>
          refine ⟨(c :: d) :: ds, by simp, ?_, ?_, ?_⟩
          · cases ds with
            | nil => simpa [jn] using hjp
            | cons e es => rw [jn_cons₂]; rw [jn_cons₂] at hjp; simp [hjp]
          · rw [hrep]
            cases ds with
            | nil => simpa [jn] using hjr
            | cons e es => rw [jn_cons₂]; rw [jn_cons₂] at hjr; simp [hjr]
          · intro d' hd'
            rcases List.mem_cons.mp hd' with rfl | hd''
            · intro hocc
              rcases List.infix_cons_iff.mp hocc with hpre | hinf
              · have hdpre : d <+: cs₀ := by
                  cases ds with
                  | nil => rw [hjp]; simp [jn]
                  | cons e es =>
                    rw [hjp, jn_cons₂, List.append_assoc]
                    exact ⟨p ++ jn p (e :: es), rfl⟩
                have : p <+: c :: cs₀ :=
                  hpre.trans (List.cons_prefix_cons.mpr ⟨rfl, hdpre⟩)
                rw [leads_iff.mpr this] at h'
                simp at h'
              · exact hch d (List.mem_cons_self d ds) hinf
            · exact hch d' (List.mem_cons_of_mem d hd'')

theorem rep_decomp' {p : L} (r : L) (hp : p ≠ []) (s : L) :
    ∃ cs : List L, cs ≠ [] ∧ s = jn p cs ∧ rep p r s = jn r cs ∧
      ∀ c ∈ cs, ¬ p <:+: c :=
  rep_decomp r hp s.length s le_rfl

/-- If `p` does not occur in `s`, replacing it changes nothing. -/
theorem rep_no_occ {p r s : L} (h : ¬ p <:+: s) : rep p r s = s := by
  have hp : p ≠ [] := fun hnil => h (hnil ▸ List.nil_infix)
  induction s with
  | nil => exact rep_nil p r
  | cons c cs₀ ih =>
    have h' : leads p (c :: cs₀) = false := by
      cases h2 : leads p (c :: cs₀) with
      | true => exact absurd (List.IsPrefix.isInfix (leads_iff.mp h2)) h
      | false => rfl
    rw [rep_cons_neg r hp h']
    have : ¬ p <:+: cs₀ := fun hocc => h (List.infix_cons_iff.mpr (Or.inr hocc))
    rw [ih this]

/-- If `p` occurs in `s`, then the replacement `r` occurs in the output. -/
theorem rep_intro {p r : L} (hp : p ≠ []) :
    ∀ n s, s.length ≤ n → p <:+: s → r <:+: rep p r s := by
  intro n
  induction n with
  | zero =>
    intro s hs h
    have : s = [] := List.eq_nil_of_length_eq_zero (Nat.le_zero.mp hs)
    subst this
    exact absurd (List.eq_nil_of_infix_nil h) hp
  | succ n ih =>
    intro s hs h
    cases s with
    | nil => exact absurd (List.eq_nil_of_infix_nil h) hp
    | cons c cs₀ =>
      by_cases hl : leads p (c :: cs₀) = true
      · rw [rep_cons_pos r hp hl]
        exact List.IsPrefix.isInfix ⟨_, rfl⟩
      · have h' : leads p (c :: cs₀) = false := by
          cases h2 : leads p (c :: cs₀) with
          | true => exact absurd h2 hl
          | false => rfl
        rw [rep_cons_neg r hp h']
        rcases List.infix_cons_iff.mp h with hpre | hinf
        · rw [leads_iff.mpr hpre] at h'; simp at h'
        · have hlen : cs₀.length ≤ n := by simpa using hs
          exact List.infix_cons_iff.mpr (Or.inr (ih cs₀ hlen hinf))

theorem rep_intro' {p r : L} (hp : p ≠ []) {s : L} (h : p <:+: s) :
    r <:+: rep p r s :=
  rep_intro hp s.length s le_rfl h

/-- Splitting a prefix of an append. -/
theorem prefix_split {y a b : L} (h : y <+: a ++ b) :
    y <+: a ∨ ∃ y', y = a ++ y' ∧ y' <+: b := by
  obtain ⟨t, ht⟩ := h
  rcases List.append_eq_append_iff.mp ht with ⟨a', ha1, _⟩ | ⟨c', hc1, hc2⟩
  · exact Or.inl ⟨a', ha1.symm⟩
  · exact Or.inr ⟨c', hc1, ⟨t, hc2.symm⟩⟩

/-- Where an occurrence can sit inside an append: wholly in the left part,
wholly in the right part, or spanning the boundary. -/
theorem infix_append_cases {q a b : L} (h : q <:+: a ++ b) :
    q <:+: a ∨ q <:+: b ∨
      ∃ x y, q = x ++ y ∧ x ≠ [] ∧ y ≠ [] ∧ x <:+ a ∧ y <+: b := by
  induction a with
  | nil => exact Or.inr (Or.inl h)
  | cons c a' ih =>
    rw [List.cons_append] at h
    rcases List.infix_cons_iff.mp h with hpre | hinf
    · cases q with
      | nil => exact Or.inl List.nil_infix
      | cons q₀ q' =>
        obtain ⟨hq0, hq'⟩ := List.cons_prefix_cons.mp hpre
        rcases prefix_split hq' with h1 | ⟨y', rfl, hy'⟩
        · exact Or.inl (List.IsPrefix.isInfix (List.cons_prefix_cons.mpr ⟨hq0, h1⟩))
        · cases y' with
          | nil =>
            refine Or.inl ?_
            have heq : q₀ :: (a' ++ []) = c :: a' := by rw [hq0]; simp
            rw [heq]
          | cons z zs =>
            refine Or.inr (Or.inr ⟨c :: a', z :: zs, ?_, by simp, by simp,
              List.suffix_refl _, hy'⟩)
            rw [hq0]; simp
    · rcases ih hinf with h1 | h2 | ⟨x, y, hq, hx, hy, hxs, hyp⟩
      · exact Or.inl (List.infix_cons_iff.mpr (Or.inr h1))
      · exact Or.inr (Or.inl h2)
      · exact Or.inr (Or.inr ⟨x, y, hq, hx, hy, hxs.trans (List.suffix_cons c a'), hyp⟩)

/-- Positional split: an occurrence `u ++ q ++ v` of an append `A ++ B`. -/
theorem occ_in_append {A B u v q : L} (h : A ++ B = u ++ q ++ v) :
    (∃ v₀, A = u ++ q ++ v₀ ∧ v = v₀ ++ B) ∨
    (∃ x y, q = x ++ y ∧ y ≠ [] ∧ A = u ++ x ∧ B = y ++ v) ∨
    (∃ u₀, u = A ++ u₀ ∧ B = u₀ ++ q ++ v) := by
  rw [List.append_assoc] at h
  rcases List.append_eq_append_iff.mp h with ⟨a', ha1, ha2⟩ | ⟨c', hc1, hc2⟩
  · exact Or.inr (Or.inr ⟨a', ha1, by rw [ha2, List.append_assoc]⟩)
  · rcases List.append_eq_append_iff.mp hc2 with ⟨t, ht1, ht2⟩ | ⟨t, ht1, ht2⟩
    · exact Or.inl ⟨t, by rw [hc1, ht1, List.append_assoc], ht2⟩
    · cases t with
      | nil =>
        refine Or.inl ⟨[], ?_, ?_⟩
        · rw [hc1, ht1]; simp
        · rw [ht2]; simp
      | cons z zs =>
        exact Or.inr (Or.inl ⟨c', z :: zs, ht1, by simp, hc1, ht2⟩)

theorem splitsOK_spec {q p r : L} (h : splitsOK q p r = true) {x y : L}
    (hq : q = x ++ y) (hx : x ≠ []) (hy : y ≠ []) :
    (y <+: r → y <+: p) ∧ (x <:+ r → x <:+ p) := by
  have hk : x.length < q.length := by
    rw [hq, List.length_append]
    have : 0 < y.length := List.length_pos.mpr hy
    omega
  have hmem : x.length ∈ List.range q.length := List.mem_range.mpr hk
  have hb := (List.all_eq_true.mp h) _ hmem
  have hk0 : (x.length == 0) = false := by
    simp only [beq_eq_false_iff_ne, ne_eq]
    exact fun h0 => hx (List.eq_nil_of_length_eq_zero h0)
  rw [hk0, Bool.false_or, Bool.and_eq_true] at hb
  have htake : List.take x.length q = x := by rw [hq, List.take_left]
  have hdrop : List.drop x.length q = y := by rw [hq, List.drop_left]
  rw [htake, hdrop] at hb
  obtain ⟨hb1, hb2⟩ := hb
  constructor
  · intro hyr
    rw [← leads_iff] at hyr
    rcases Bool.or_eq_true_iff.mp hb1 with h1 | h1
    · rw [hyr] at h1; simp at h1
    · exact leads_iff.mp h1
  · intro hxr
    rw [← trails_iff] at hxr
    rcases Bool.or_eq_true_iff.mp hb2 with h1 | h1
    · rw [hxr] at h1; simp at h1
    · exact trails_iff.mp h1

/-- Inner lemma of occurrence preservation: no forbidden `q` can begin as a
suffix of a replaced copy of `r` and continue into the rest of the output. -/
theorem rep_gen {q p r : L} (hB : ¬ r <:+: q) (hs : splitsOK q p r = true) :
    ∀ cs x y, q = x ++ y → x ≠ [] → x <:+ p →
      ¬ q <:+: (x ++ jn p cs) → ¬ y <+: jn r cs := by
  intro cs
  induction cs with
  | nil =>
    intro x y hq hx _ hno hy
    have : y = [] := List.prefix_nil.mp hy
    subst this
    rw [List.append_nil] at hq
    subst hq
    exact hno (List.IsPrefix.isInfix ⟨jn p [], rfl⟩)
  | cons c cs' ih =>
    intro x y hq hx hxp hno hy
    cases cs' with
    | nil =>
      simp only [jn] at hy hno
      obtain ⟨t, ht⟩ := hy
      apply hno
      refine ⟨[], t, ?_⟩
      rw [List.nil_append, hq, List.append_assoc, ht]
    | cons d ds =>
      rw [jn_cons₂] at hy hno
      rw [List.append_assoc] at hy
      rcases prefix_split hy with h1 | ⟨y₁, rfl, hy₁⟩
      · obtain ⟨t, ht⟩ := h1
        apply hno
        refine ⟨[], t ++ (p ++ jn p (d :: ds)), ?_⟩
        simp only [List.nil_append, hq, ← ht, List.append_assoc]
      · rcases prefix_split hy₁ with h2 | ⟨y₂, rfl, _⟩
        · cases y₁ with
          | nil =>
            rw [List.append_nil] at hq
            apply hno
            refine ⟨[], p ++ jn p (d :: ds), ?_⟩
            simp only [List.nil_append, hq, List.append_assoc]
          | cons z zs =>
            have hsplit := @splitsOK_spec _ _ _ hs (x ++ c) (z :: zs)
              (by rw [hq]; simp [List.append_assoc]) (by simp [hx]) (by simp)
            have hzp : (z :: zs) <+: p := hsplit.1 h2
            obtain ⟨w, hw⟩ := hzp
            apply hno
            refine ⟨[], w ++ jn p (d :: ds), ?_⟩
            simp only [List.nil_append, hq, ← hw, List.append_assoc]
        · apply hB
          rw [hq]
          exact ⟨x ++ c, y₂, by simp [List.append_assoc]⟩

/-- Occurrence preservation over the chunk decomposition. -/
theorem rep_pres_chunks {q p r : L} (hA : ¬ q <:+: r) (hB : ¬ r <:+: q)
    (hs : splitsOK q p r = true) :
    ∀ cs, ¬ q <:+: jn p cs → ¬ q <:+: jn r cs := by
  intro cs
  induction cs with
  | nil => intro h; exact h
  | cons c cs' ih =>
    intro hno h
    cases cs' with
    | nil => exact hno h
    | cons d ds =>
      rw [jn_cons₂] at hno h
      rw [List.append_assoc] at h
      have hnoc : ¬ q <:+: c := fun hq =>
        hno (hq.trans (List.IsPrefix.isInfix ⟨p ++ jn p (d :: ds), by simp [List.append_assoc]⟩))
      have hnorest : ¬ q <:+: jn p (d :: ds) := fun hq =>
        hno (hq.trans (List.IsSuffix.isInfix ⟨c ++ p, by simp [List.append_assoc]⟩))
      rcases infix_append_cases h with h1 | h2 | ⟨x, y, hxy, hx, hy, hxs, hyp⟩
      · exact hnoc h1
      · rcases infix_append_cases h2 with h3 | h4 | ⟨x, y, hxy, hx, hy, hxs, hyp⟩
        · exact hA h3
        · exact ih hnorest h4
        · have hsp := splitsOK_spec hs hxy hx hy
          have hxp : x <:+ p := hsp.2 hxs
          apply rep_gen hB hs (d :: ds) x y hxy hx hxp ?_ hyp
          intro hocc
          apply hno
          obtain ⟨w, hw⟩ := hxp
          refine hocc.trans ⟨c ++ w, [], ?_⟩
          simp only [List.append_nil, ← hw, List.append_assoc]
      · rcases prefix_split hyp with h5 | ⟨y₂, rfl, _⟩
        · have hsp := splitsOK_spec hs hxy hx hy
          have hyp' : y <+: p := hsp.1 h5
          apply hno
          obtain ⟨t, ht⟩ := hxs
          obtain ⟨w, hw⟩ := hyp'
          refine ⟨t, w ++ jn p (d :: ds), ?_⟩
          simp only [hxy, ← ht, ← hw, List.append_assoc]
        · apply hB
          rw [hxy]
          exact ⟨x, y₂, by simp [List.append_assoc]⟩

/-- Main preservation lemma: under the decidable conditions `topOK`, a rule
cannot create an occurrence of `q` where there was none. -/
theorem rep_pres {q p r : L} (hp : p ≠ []) (ht : topOK q p r = true) {s : L}
    (h : ¬ q <:+: s) : ¬ q <:+: rep p r s := by
  unfold topOK at ht
  rw [Bool.and_eq_true, Bool.and_eq_true] at ht
  obtain ⟨⟨hA, hB⟩, hs⟩ := ht
  have hA' : ¬ q <:+: r := fun hocc => by
    rw [← occursB_iff] at hocc; rw [hocc] at hA; simp at hA
  have hB' : ¬ r <:+: q := fun hocc => by
    rw [← occursB_iff] at hocc; rw [hocc] at hB; simp at hB
  obtain ⟨cs, _, hjp, hjr, _⟩ := rep_decomp' r hp s
  rw [hjr]
  exact rep_pres_chunks hA' hB' hs cs (hjp ▸ h)

theorem selfOK_take {p r : L} (h : selfOK p r = true) {x : L}
    (hx : x ≠ []) (hxy : ∃ y, y ≠ [] ∧ p = x ++ y) : ¬ x <:+ r := by
  obtain ⟨y, hy, hp⟩ := hxy
  unfold selfOK at h
  rw [Bool.and_eq_true, Bool.and_eq_true, Bool.and_eq_true] at h
  obtain ⟨⟨⟨_, _⟩, h3⟩, _⟩ := h
  intro hxr
  have hk : x.length < p.length := by
    rw [hp, List.length_append]
    have : 0 < y.length := List.length_pos.mpr hy
    omega
  have hb := (List.all_eq_true.mp h3) _ (List.mem_range.mpr hk)
  have hk0 : (x.length == 0) = false := by
    simp only [beq_eq_false_iff_ne, ne_eq]
    exact fun h0 => hx (List.eq_nil_of_length_eq_zero h0)
  rw [hk0, Bool.false_or] at hb
  have htake : List.take x.length p = x := by rw [hp, List.take_left]
  rw [htake, trails_iff.mpr hxr] at hb
  simp at hb

theorem selfOK_drop {p r : L} (h : selfOK p r = true) {t : L}
    (ht : t <:+ p) (htr : t <+: r) : t <+: p := by
  unfold selfOK at h
  rw [Bool.and_eq_true, Bool.and_eq_true, Bool.and_eq_true] at h
  obtain ⟨⟨⟨_, _⟩, _⟩, h4⟩ := h
  obtain ⟨w, hw⟩ := ht
  have hk : w.length < p.length + 1 := by
    rw [← hw, List.length_append]; omega
  have hb := (List.all_eq_true.mp h4) _ (List.mem_range.mpr hk)
  have hdrop : List.drop w.length p = t := by rw [← hw, List.drop_left]
  rw [hdrop, leads_iff.mpr htr] at hb
  rcases Bool.or_eq_true_iff.mp hb with h1 | h1
  · simp at h1
  · exact leads_iff.mp h1

theorem selfOK_no_pr {p r : L} (h : selfOK p r = true) : ¬ p <:+: r := by
  unfold selfOK at h
  rw [Bool.and_eq_true, Bool.and_eq_true, Bool.and_eq_true] at h
  obtain ⟨⟨⟨h1, _⟩, _⟩, _⟩ := h
  intro hocc
  rw [← occursB_iff] at hocc
  rw [hocc] at h1
  simp at h1

theorem selfOK_no_rp {p r : L} (h : selfOK p r = true) : ¬ r <:+: p := by
  unfold selfOK at h
  rw [Bool.and_eq_true, Bool.and_eq_true, Bool.and_eq_true] at h
  obtain ⟨⟨⟨_, h2⟩, _⟩, _⟩ := h
  intro hocc
  rw [← occursB_iff] at hocc
  rw [hocc] at h2
  simp at h2

/-- Prefix inversion: a suffix-piece of `p` that is a prefix of the output
of `rep p r` was already a prefix of the input. -/
theorem rep_pinv {p r : L} (hp : p ≠ []) (hS : selfOK p r = true) :
    ∀ n s, s.length ≤ n → ∀ t, t <:+ p → t <+: rep p r s → t <+: s := by
  intro n
  induction n with
  | zero =>
    intro s hs t _ hpre
    have : s = [] := List.eq_nil_of_length_eq_zero (Nat.le_zero.mp hs)
    subst this
    rw [rep_nil] at hpre
    exact hpre
  | succ n ih =>
    intro s hs t htp hpre
    cases s with
    | nil => rw [rep_nil] at hpre; exact hpre
    | cons c cs₀ =>
      by_cases hl : leads p (c :: cs₀) = true
      · obtain ⟨s', hs'⟩ := leads_iff.mp hl
        rw [← hs'] at hpre ⊢
        rw [rep_head_match r s' hp] at hpre
        rcases prefix_split hpre with h1 | ⟨t₁, rfl, _⟩
        · have : t <+: p := selfOK_drop hS htp h1
          exact this.trans (List.prefix_append p s')
        · exfalso
          apply selfOK_no_rp hS
          exact List.IsInfix.trans (List.IsPrefix.isInfix ⟨t₁, rfl⟩)
            (List.IsSuffix.isInfix htp)
      · have h' : leads p (c :: cs₀) = false := by
          cases h2 : leads p (c :: cs₀) with
          | true => exact absurd h2 hl
          | false => rfl
        rw [rep_cons_neg r hp h'] at hpre
        cases t with
        | nil => exact List.nil_prefix
        | cons t₀ t₁ =>
          obtain ⟨ht0, ht1⟩ := List.cons_prefix_cons.mp hpre
          have ht1p : t₁ <:+ p := by
            obtain ⟨w, hw⟩ := htp
            exact ⟨w ++ [t₀], by rw [← hw]; simp⟩
          have hlen : cs₀.length ≤ n := by simpa using hs
          have := ih cs₀ hlen t₁ ht1p ht1
          exact List.cons_prefix_cons.mpr ⟨ht0, this⟩

/-- A rule's own pattern does not occur in its output (under `selfOK`). -/
theorem rep_self {p r : L} (hp : p ≠ []) (hS : selfOK p r = true) :
    ∀ n s, s.length ≤ n → ¬ p <:+: rep p r s := by
  intro n
  induction n with
  | zero =>
    intro s hs h
    have : s = [] := List.eq_nil_of_length_eq_zero (Nat.le_zero.mp hs)
    subst this
    rw [rep_nil] at h
    exact hp (List.eq_nil_of_infix_nil h)
  | succ n ih =>
    intro s hs h
    cases s with
    | nil =>
      rw [rep_nil] at h
      exact hp (List.eq_nil_of_infix_nil h)
    | cons c cs₀ =>
      by_cases hl : leads p (c :: cs₀) = true
      · obtain ⟨s', hs'⟩ := leads_iff.mp hl
        rw [← hs'] at h
        rw [rep_head_match r s' hp] at h
        have hslen : s'.length ≤ n := by
          have h2 : (c :: cs₀).length = p.length + s'.length := by rw [← hs']; simp
          have h3 : 1 ≤ p.length := by
            cases p with
            | nil => exact absurd rfl hp
            | cons a as => simp
          simp only [List.length_cons] at hs h2
          omega
        rcases infix_append_cases h with h1 | h2 | ⟨x, y, hxy, hx, hy, hxs, _⟩
        · exact selfOK_no_pr hS h1
        · exact ih s' hslen h2
        · exact selfOK_take hS hx ⟨y, hy, hxy⟩ hxs
      · have h' : leads p (c :: cs₀) = false := by
          cases h2 : leads p (c :: cs₀) with
          | true => exact absurd h2 hl
          | false => rfl
        rw [rep_cons_neg r hp h'] at h
        have hlen : cs₀.length ≤ n := by simpa using hs
        rcases List.infix_cons_iff.mp h with hpre | hinf
        · cases p with
          | nil => exact hp rfl
          | cons p₀ p₁ =>
            obtain ⟨hp0, hp1⟩ := List.cons_prefix_cons.mp hpre
            have hp1s : p₁ <:+ p₀ :: p₁ := ⟨[p₀], rfl⟩
            have := rep_pinv hp hS n cs₀ hlen p₁ hp1s hp1
            have hpref : (p₀ :: p₁) <+: (c :: cs₀) :=
              List.cons_prefix_cons.mpr ⟨hp0, this⟩
            rw [leads_iff.mpr hpref] at h'
            simp at h'
        · exact ih cs₀ hlen hinf

theorem rep_self' {p r : L} (hp : p ≠ []) (hS : selfOK p r = true) (s : L) :
    ¬ p <:+: rep p r s :=
  rep_self hp hS s.length s le_rfl

theorem survOK_no_qp {q p r : L} (h : survOK q p r = true) : ¬ q <:+: p := by
  unfold survOK at h
  rw [Bool.and_eq_true, Bool.and_eq_true, Bool.and_eq_true] at h
  obtain ⟨⟨⟨h1, _⟩, _⟩, _⟩ := h
  intro hocc
  rw [← occursB_iff] at hocc
  rw [hocc] at h1
  simp at h1

theorem survOK_no_pq {q p r : L} (h : survOK q p r = true) : ¬ p <:+: q := by
  unfold survOK at h
  rw [Bool.and_eq_true, Bool.and_eq_true, Bool.and_eq_true] at h
  obtain ⟨⟨⟨_, h2⟩, _⟩, _⟩ := h
  intro hocc
  rw [← occursB_iff] at hocc
  rw [hocc] at h2
  simp at h2

theorem survOK_take {q p r : L} (h : survOK q p r = true) {x : L}
    (hx : x ≠ []) (hxy : ∃ y, y ≠ [] ∧ q = x ++ y) : ¬ x <:+ p := by
  obtain ⟨y, hy, hq⟩ := hxy
  unfold survOK at h
  rw [Bool.and_eq_true, Bool.and_eq_true, Bool.and_eq_true] at h
  obtain ⟨⟨⟨_, _⟩, h3⟩, _⟩ := h
  intro hxr
  have hk : x.length < q.length := by
    rw [hq, List.length_append]
    have : 0 < y.length := List.length_pos.mpr hy
    omega
  have hb := (List.all_eq_true.mp h3) _ (List.mem_range.mpr hk)
  have hk0 : (x.length == 0) = false := by
    simp only [beq_eq_false_iff_ne, ne_eq]
    exact fun h0 => hx (List.eq_nil_of_length_eq_zero h0)
  rw [hk0, Bool.false_or] at hb
  have htake : List.take x.length q = x := by rw [hq, List.take_left]
  rw [htake, trails_iff.mpr hxr] at hb
  simp at hb

theorem survOK_drop {q p r : L} (h : survOK q p r = true) {t : L}
    (ht : t <:+ q) (htr : t <+: p) : t <+: r := by
  unfold survOK at h
  rw [Bool.and_eq_true, Bool.and_eq_true, Bool.and_eq_true] at h
  obtain ⟨⟨⟨_, _⟩, _⟩, h4⟩ := h
  obtain ⟨w, hw⟩ := ht
  have hk : w.length < q.length + 1 := by
    rw [← hw, List.length_append]; omega
  have hb := (List.all_eq_true.mp h4) _ (List.mem_range.mpr hk)
  have hdrop : List.drop w.length q = t := by rw [← hw, List.drop_left]
  rw [hdrop, leads_iff.mpr htr] at hb
  rcases Bool.or_eq_true_iff.mp hb with h1 | h1
  · simp at h1
  · exact leads_iff.mp h1

/-- A prefix of the input that is a suffix-piece of `q` survives as a prefix
of the output of `rep p r`. -/
theorem rep_pre {q p r : L} (hp : p ≠ []) (hS : survOK q p r = true) :
    ∀ n s, s.length ≤ n → ∀ t, t <:+ q → t <+: s → t <+: rep p r s := by
  intro n
  induction n with
  | zero =>
    intro s hs t _ hpre
    have : s = [] := List.eq_nil_of_length_eq_zero (Nat.le_zero.mp hs)
    subst this
    rw [rep_nil]
    exact hpre
  | succ n ih =>
    intro s hs t htq hpre
    cases s with
    | nil => rw [rep_nil]; exact hpre
    | cons c cs₀ =>
      by_cases hl : leads p (c :: cs₀) = true
      · obtain ⟨s', hs'⟩ := leads_iff.mp hl
        rw [← hs'] at hpre ⊢
        rw [rep_head_match r s' hp]
        rcases List.prefix_or_prefix_of_prefix hpre (List.prefix_append p s')
          with h1 | h1
        · exact (survOK_drop hS htq h1).trans (List.prefix_append r _)
        · exfalso
          apply survOK_no_pq hS
          exact List.IsInfix.trans (List.IsPrefix.isInfix h1)
            (List.IsSuffix.isInfix htq)
      · have h' : leads p (c :: cs₀) = false := by
          cases h2 : leads p (c :: cs₀) with
          | true => exact absurd h2 hl
          | false => rfl
        rw [rep_cons_neg r hp h']
        cases t with
        | nil => exact List.nil_prefix
        | cons t₀ t₁ =>
          obtain ⟨ht0, ht1⟩ := List.cons_prefix_cons.mp hpre
          have ht1q : t₁ <:+ q := by
            obtain ⟨w, hw⟩ := htq
            exact ⟨w ++ [t₀], by rw [← hw]; simp⟩
          have hlen : cs₀.length ≤ n := by simpa using hs
          exact List.cons_prefix_cons.mpr ⟨ht0, ih cs₀ hlen t₁ ht1q ht1⟩

/-- Occurrence survival: under `survOK`, replacing `p` by `r` cannot destroy
an occurrence of `q`. -/
theorem rep_surv {q p r : L} (hp : p ≠ []) (hq : q ≠ []) (hS : survOK q p r = true) :
    ∀ n s, s.length ≤ n → q <:+: s → q <:+: rep p r s := by
  intro n
  induction n with
  | zero =>
    intro s hs h
    have : s = [] := List.eq_nil_of_length_eq_zero (Nat.le_zero.mp hs)
    subst this
    exact absurd (List.eq_nil_of_infix_nil h) hq
  | succ n ih =>
    intro s hs h
    cases s with
    | nil => exact absurd (List.eq_nil_of_infix_nil h) hq
    | cons c cs₀ =>
      by_cases hl : leads p (c :: cs₀) = true
      · obtain ⟨s', hs'⟩ := leads_iff.mp hl
        rw [← hs'] at h ⊢
        rw [rep_head_match r s' hp]
        have hslen : s'.length ≤ n := by
          have h2 : (c :: cs₀).length = p.length + s'.length := by rw [← hs']; simp
          have h3 : 1 ≤ p.length := by
            cases p with
            | nil => exact absurd rfl hp
            | cons a as => simp
          simp only [List.length_cons] at hs h2
          omega
        rcases infix_append_cases h with h1 | h2 | ⟨x, y, hxy, hx, hy, hxs, _⟩
        · exact absurd h1 (survOK_no_qp hS)
        · exact List.IsInfix.trans (ih s' hslen h2) (List.IsSuffix.isInfix ⟨r, rfl⟩)
        · exact absurd hxs (survOK_take hS hx ⟨y, hy, hxy⟩)
      · have h' : leads p (c :: cs₀) = false := by
          cases h2 : leads p (c :: cs₀) with
          | true => exact absurd h2 hl
          | false => rfl
        rw [rep_cons_neg r hp h']
        have hlen : cs₀.length ≤ n := by simpa using hs
        rcases List.infix_cons_iff.mp h with hpre | hinf
        · cases q with
          | nil => exact absurd rfl hq
          | cons q₀ q₁ =>
            obtain ⟨hq0, hq1⟩ := List.cons_prefix_cons.mp hpre
            have hq1q : q₁ <:+ q₀ :: q₁ := ⟨[q₀], rfl⟩
            have := rep_pre hp hS n cs₀ hlen q₁ hq1q hq1
            exact List.IsPrefix.isInfix (List.cons_prefix_cons.mpr ⟨hq0, this⟩)
        · exact List.infix_cons_iff.mpr (Or.inr (ih cs₀ hlen hinf))

theorem rep_surv' {q p r : L} (hp : p ≠ []) (hq : q ≠ []) (hS : survOK q p r = true)
    {s : L} (h : q <:+: s) : q <:+: rep p r s :=
  rep_surv hp hq hS s.length s le_rfl h

theorem applyRules_nil (s : L) : applyRules [] s = s := rfl

theorem applyRules_cons (p r : L) (rs : List (L × L)) (s : L) :
    applyRules ((p, r) :: rs) s = applyRules rs (rep p r s) := rfl

theorem applyRules_append (rs₁ rs₂ : List (L × L)) (s : L) :
    applyRules (rs₁ ++ rs₂) s = applyRules rs₂ (applyRules rs₁ s) := by
  unfold applyRules
  rw [List.foldl_append]

/-- Chained preservation: if no rule of the list can create `q`, an input
free of `q` stays free of `q`. -/
theorem applyRules_pres {q : L} :
    ∀ rs : List (L × L), (∀ pr ∈ rs, pr.1 ≠ [] ∧ topOK q pr.1 pr.2 = true) →
      ∀ s, ¬ q <:+: s → ¬ q <:+: applyRules rs s := by
  intro rs
  induction rs with
  | nil => intro _ s h; exact h
  | cons pr rs' ih =>
    intro hc s h
    obtain ⟨hp, ht⟩ := hc pr (List.mem_cons_self pr rs')
    cases pr with
    | mk p r =>
      rw [applyRules_cons]
      exact ih (fun pr' hpr' => hc pr' (List.mem_cons_of_mem _ hpr')) _
        (rep_pres hp ht h)

/-- Chained survival: if no rule of the list can destroy `q`, an occurrence
of `q` survives the whole list. -/
theorem applyRules_surv {q : L} (hq : q ≠ []) :
    ∀ rs : List (L × L), (∀ pr ∈ rs, pr.1 ≠ [] ∧ survOK q pr.1 pr.2 = true) →
      ∀ s, q <:+: s → q <:+: applyRules rs s := by
  intro rs
  induction rs with
  | nil => intro _ s h; exact h
  | cons pr rs' ih =>
    intro hc s h
    obtain ⟨hp, ht⟩ := hc pr (List.mem_cons_self pr rs')
    cases pr with
    | mk p r =>
      rw [applyRules_cons]
      exact ih (fun pr' hpr' => hc pr' (List.mem_cons_of_mem _ hpr')) _
        (rep_surv' hp hq ht h)

/-- If none of the rules' patterns occurs in `s`, the whole list is a
no-op. -/
theorem applyRules_no_occ :
    ∀ rs : List (L × L), (∀ pr ∈ rs, ¬ pr.1 <:+: s) → applyRules rs s = s := by
  intro rs
  induction rs with
  | nil => exact fun _ => rfl
  | cons pr rs' ih =>
    intro hc
    cases pr with
    | mk p r =>
      rw [applyRules_cons, rep_no_occ (hc (p, r) (List.mem_cons_self _ rs'))]
      exact ih fun pr' hpr' => hc pr' (List.mem_cons_of_mem _ hpr')

/-- Splitting a replacement across a boundary that no occurrence of `p`
crosses. -/
theorem rep_split {p r : L} (hp : p ≠ []) :
    ∀ a b, ¬ p <:+: a → (∀ y, y <:+ p → y ≠ [] → y ≠ p → ¬ y <+: b) →
      rep p r (a ++ b) = a ++ rep p r b := by
  intro a
  induction a with
  | nil => intro b _ _; simp
  | cons c a' ih =>
    intro b hna hnb
    rw [List.cons_append]
    have hnomatch : leads p (c :: (a' ++ b)) = false := by
      cases hlm : leads p (c :: (a' ++ b)) with
      | false => rfl
      | true =>
        exfalso
        have hpre := leads_iff.mp hlm
        rw [← List.cons_append] at hpre
        rcases prefix_split hpre with h1 | ⟨y, hy1, hy2⟩
        · exact hna (List.IsPrefix.isInfix h1)
        · cases y with
          | nil =>
            rw [List.append_nil] at hy1
            exact hna (hy1 ▸ List.infix_refl _)
          | cons z zs =>
            refine hnb (z :: zs) ⟨c :: a', hy1.symm⟩ (by simp) ?_ hy2
            intro hcon
            rw [hcon] at hy1
            have : (c :: a').length = 0 := by
              have := congrArg List.length hy1
              simp only [List.length_append] at this
              omega
            simp at this
    rw [rep_cons_neg r hp hnomatch]
    have hna' : ¬ p <:+: a' := fun h =>
      hna (List.infix_cons_iff.mpr (Or.inr h))
    rw [ih b hna' hnb]
    rfl

theorem sanitizeRules_split : sanitizeRules = frontRules ++ inputRules := by
  unfold sanitizeRules frontRules
  simp [List.append_assoc]

theorem applyRules_chain :
    ∀ rs : List (L × L), chainOK rs = true →
      ∀ pr ∈ rs, ∀ s, ¬ pr.1 <:+: applyRules rs s := by
  intro rs
  induction rs with
  | nil => intro _ pr hpr; exact absurd hpr (List.not_mem_nil pr)
  | cons hd rest ih =>
    intro hok pr hpr s
    cases hd with
    | mk p r =>
      unfold chainOK at hok
      rw [Bool.and_eq_true, Bool.and_eq_true, Bool.and_eq_true] at hok
      obtain ⟨⟨⟨hp, hself⟩, hall⟩, hrest⟩ := hok
      have hpne : p ≠ [] := by
        intro hnil
        rw [hnil] at hp
        simp at hp
      rcases List.mem_cons.mp hpr with rfl | hmem
      · rw [applyRules_cons]
        apply applyRules_pres rest _ _ (rep_self' hpne hself s)
        intro pr' hpr'
        have hb := (List.all_eq_true.mp hall) pr' hpr'
        rw [Bool.and_eq_true] at hb
        refine ⟨?_, hb.2⟩
        intro hnil
        rw [hnil] at hb
        simp at hb
      · rw [applyRules_cons]
        exact ih hrest pr hmem _

theorem inputRules_eq :
    inputRules = [(inQ, inE), (inE ++ disL, inQ ++ disL), (inE ++ typL, inQ ++ typL)] := by
  decide

theorem applyRules_input (o : L) : applyRules inputRules o = T3 o := by
  rw [inputRules_eq, applyRules_cons, applyRules_cons, applyRules_cons, applyRules_nil]
  rfl

theorem sanitize_as_T3 (s : L) :
    sanitize_html s = T3 (applyRules frontRules s) := by
  show applyRules sanitizeRules s = _
  rw [sanitizeRules_split, applyRules_append]
  exact applyRules_input _

theorem chainOK_front : chainOK frontRules = true := by decide

set_option maxHeartbeats 2000000 in
theorem front_through_input :
    (frontRules.all fun pr => inputRules.all fun pr2 =>
      !(pr2.1 == []) && topOK pr.1 pr2.1 pr2.2) = true := by decide

/-- No pattern of the first 26 rules occurs in the sanitizer's output. -/
theorem sanitize_no_front {pr : L × L} (hpr : pr ∈ frontRules) (s : L) :
    ¬ pr.1 <:+: sanitize_html s := by
  rw [sanitize_html, sanitizeRules_split, applyRules_append]
  apply applyRules_pres inputRules
  · intro pr2 hpr2
    have hb := (List.all_eq_true.mp ((List.all_eq_true.mp front_through_input) pr hpr)) pr2 hpr2
    rw [Bool.and_eq_true] at hb
    refine ⟨?_, hb.2⟩
    intro hnil
    rw [hnil] at hb
    simp at hb
  · exact applyRules_chain frontRules chainOK_front pr hpr s

theorem jn_chunk_infix {sep : L} : ∀ {cs : List L}, ∀ c ∈ cs, c <:+: jn sep cs := by
  intro cs
  induction cs with
  | nil => intro c hc; exact absurd hc (List.not_mem_nil c)
  | cons d ds ih =>
    intro c hc
    rcases List.mem_cons.mp hc with rfl | hmem
    · cases ds with
      | nil => exact List.infix_refl c
      | cons e es =>
        rw [jn_cons₂]
        exact List.IsPrefix.isInfix ⟨sep ++ jn sep (e :: es), by simp [List.append_assoc]⟩
    · cases ds with
      | nil => exact absurd hmem (List.not_mem_nil c)
      | cons e es =>
        rw [jn_cons₂]
        exact (ih c hmem).trans (List.IsSuffix.isInfix ⟨d ++ sep, by simp [List.append_assoc]⟩)

theorem jn_eq_sepJoin (sep c₀ : L) : ∀ ds : List L, jn sep (c₀ :: ds) = c₀ ++ sepJoin sep ds := by
  intro ds
  induction ds generalizing c₀ with
  | nil => simp [jn, sepJoin]
  | cons d ds' ih =>
    rw [jn_cons₂, ih d]
    show c₀ ++ sep ++ (d ++ sepJoin sep ds') = c₀ ++ (sep ++ d ++ sepJoin sep ds')
    simp [List.append_assoc]

theorem ctrlA_shift {a o : L} (h : CtrlA (a ++ o)) : CtrlA o := by
  intro u v hv
  apply h (a ++ u) v
  rw [hv]
  simp [List.append_assoc]

theorem inQ_ne : inQ ≠ [] := by decide
theorem p27_ne : inE ++ disL ≠ [] := by decide
theorem p28_ne : inE ++ typL ≠ [] := by decide
theorem inQ_head : inQ = '<' :: lc "input" := by decide
theorem p28_head : inE ++ typL = '&' :: lc "lt;input type=\"checkbox\" disabled" := by decide
theorem self26ok : selfOK inQ inE = true := by decide
theorem self27ok : selfOK (inE ++ disL) (inQ ++ disL) = true := by decide
theorem self28ok : selfOK (inE ++ typL) (inQ ++ typL) = true := by decide
theorem top2728ok : topOK (inE ++ disL) (inE ++ typL) (inQ ++ typL) = true := by decide

theorem tails26 : ∀ y ∈ inQ.tails, y = inQ ∨ y = [] ∨ y.head? ≠ some '<' := by decide

theorem occ27at0 :
    ∀ k ∈ List.range (inQ ++ disL).length,
      k = 0 ∨ leads inQ (List.drop k (inQ ++ disL)) = false := by decide

theorem occ28at0 :
    ∀ k ∈ List.range (inQ ++ typL).length,
      k = 0 ∨ leads inQ (List.drop k (inQ ++ typL)) = false := by decide

theorem inits26r27 :
    ∀ x ∈ inQ.inits, x = [] ∨ x = inQ ∨ trails x (inQ ++ disL) = false := by decide

theorem inits26r28 :
    ∀ x ∈ inQ.inits, x = [] ∨ x = inQ ∨ trails x (inQ ++ typL) = false := by decide

theorem dis_no_amp : ∀ c ∈ disL, c ≠ '&' := by decide
theorem dis_no_lt : ∀ c ∈ disL, c ≠ '<' := by decide
theorem typ_no_lt : ∀ c ∈ typL, c ≠ '<' := by decide

theorem nil_no_occ {u v : L} (h : ([] : L) = u ++ inQ ++ v) : False := by
  have := congrArg List.length h
  simp only [List.length_nil, List.length_append] at this
  have h6 : inQ.length = 6 := by decide
  omega

/-- After the first re-admission rule (applied to text free of `<input`),
every occurrence of `<input` is followed by ` disabled`. -/
theorem ctrlA27_aux : ∀ cs : List L, (∀ c ∈ cs, ¬ inQ <:+: c) →
    CtrlA (jn (inQ ++ disL) cs) := by
  intro cs
  induction cs with
  | nil =>
    intro _ u v h
    exact absurd h nil_no_occ
  | cons c cs' ih =>
    intro hch
    cases cs' with
    | nil =>
      intro u v h
      exact absurd ⟨u, v, h.symm⟩ (hch c (List.mem_cons_self c []))
    | cons d ds =>
      have hnoc : ¬ inQ <:+: c := hch c (List.mem_cons_self c _)
      have ihA : CtrlA (jn (inQ ++ disL) (d :: ds)) :=
        ih fun c' hc' => hch c' (List.mem_cons_of_mem c hc')
      intro u v h
      rw [jn_cons₂, List.append_assoc] at h
      rcases occ_in_append h with ⟨v₀, hA, _⟩ | ⟨x, y, hxy, hy, hA, hB⟩ |
        ⟨u₁, _, hB⟩
      · exact absurd ⟨u, v₀, hA.symm⟩ hnoc
      · cases x with
        | nil =>
          rw [List.nil_append] at hxy
          rw [← hxy, List.append_assoc] at hB
          exact ⟨_, List.append_cancel_left hB⟩
        | cons x₀ xs =>
          exfalso
          have hysuf : y <:+ inQ := ⟨x₀ :: xs, hxy.symm⟩
          have hyne : y ≠ inQ := by
            intro hcon
            rw [hcon] at hxy
            have := congrArg List.length hxy
            simp only [List.length_append, List.length_cons] at this
            omega
          rcases tails26 y ((List.mem_tails _ _).mpr hysuf) with h1 | h1 | h1
          · exact hyne h1
          · exact hy h1
          · apply h1
            rw [inQ_head, List.cons_append, List.cons_append] at hB
            cases y with
            | nil => exact absurd rfl hy
            | cons y₀ ys =>
              rw [List.cons_append] at hB
              injection hB with hB1 _
              rw [hB1]
              rfl
      · rcases occ_in_append hB with ⟨v₀, hA', hv'⟩ | ⟨x, y, hxy, hy, hA', hB'⟩ |
          ⟨u₂, _, hB'⟩
        · have hk : u₁.length ∈ List.range (inQ ++ disL).length := by
            have hlen := congrArg List.length hA'
            simp only [List.length_append] at hlen
            have h1 : inQ.length = 6 := by decide
            have h2 : disL.length = 9 := by decide
            rw [List.mem_range]
            simp only [List.length_append]
            omega
          have hlead : leads inQ (List.drop u₁.length (inQ ++ disL)) = true := by
            rw [hA', List.append_assoc, List.drop_left]
            exact leads_of_append _ _
          rcases occ27at0 u₁.length hk with h0 | hf
          · have hu₁ : u₁ = [] := List.eq_nil_of_length_eq_zero h0
            rw [hu₁, List.nil_append] at hA'
            have hv₀ : disL = v₀ := List.append_cancel_left hA'
            rw [hv', ← hv₀]
            exact List.prefix_append _ _
          · rw [hlead] at hf
            simp at hf
        · cases x with
          | nil =>
            rw [List.nil_append] at hxy
            rw [← hxy] at hB'
            exact ihA [] v (by rw [hB', List.nil_append])
          | cons x₀ xs =>
            exfalso
            have hxpre : (x₀ :: xs) <+: inQ := ⟨y, hxy.symm⟩
            rcases inits26r27 _ ((List.mem_inits _ _).mpr hxpre) with h1 | h1 | h1
            · simp at h1
            · rw [h1] at hxy
              have := congrArg List.length hxy
              simp only [List.length_append] at this
              have : y.length = 0 := by omega
              exact hy (List.eq_nil_of_length_eq_zero this)
            · rw [trails_iff.mpr ⟨u₁, hA'.symm⟩] at h1
              simp at h1
        · exact ihA u₂ v hB'

theorem ctrlA27 (w : L) (hw : ¬ inQ <:+: w) :
    CtrlA (rep (inE ++ disL) (inQ ++ disL) w) := by
  obtain ⟨cs, _, hjp, hjr, _⟩ := rep_decomp' (inQ ++ disL) p27_ne w
  rw [hjr]
  apply ctrlA27_aux
  intro c hc hocc
  exact hw (hocc.trans (hjp ▸ jn_chunk_infix c hc))

/-- The second re-admission rule keeps control and adds the checkbox form. -/
theorem ctrl28_aux : ∀ cs : List L,
    CtrlA (jn (inE ++ typL) cs) → Ctrl (jn (inQ ++ typL) cs) := by
  intro cs
  induction cs with
  | nil =>
    intro _ u v h
    exact absurd h nil_no_occ
  | cons c cs' ih =>
    intro hA
    cases cs' with
    | nil => exact fun u v h => Or.inl (hA u v h)
    | cons d ds =>
      rw [jn_cons₂] at hA
      have hA' : CtrlA (jn (inE ++ typL) (d :: ds)) :=
        @ctrlA_shift (c ++ (inE ++ typL)) _ hA
      have ihC : Ctrl (jn (inQ ++ typL) (d :: ds)) := ih hA'
      intro u v h
      rw [jn_cons₂, List.append_assoc] at h
      rcases occ_in_append h with ⟨v₀, hceq, hveq⟩ | ⟨x, y, hxy, hy, hceq, hB⟩ |
        ⟨u₁, _, hB⟩
      · have hdis : disL <+: v₀ ++ ((inE ++ typL) ++ jn (inE ++ typL) (d :: ds)) := by
          apply hA u
          rw [hceq]
          simp [List.append_assoc]
        rcases prefix_split hdis with h1 | ⟨rest, hdisEq, hrest⟩
        · exact Or.inl (by rw [hveq]; exact h1.trans ⟨_, rfl⟩)
        · cases rest with
          | nil =>
            rw [List.append_nil] at hdisEq
            exact Or.inl (by rw [hveq, hdisEq]; exact ⟨_, rfl⟩)
          | cons r₀ rs =>
            exfalso
            have hr₀ : r₀ = '&' := by
              rw [p28_head, List.cons_append] at hrest
              obtain ⟨hr, _⟩ := List.cons_prefix_cons.mp hrest
              exact hr
            have hmem : r₀ ∈ disL := by
              rw [hdisEq]
              exact List.mem_append_right _ (List.mem_cons_self _ _)
            exact dis_no_amp r₀ hmem hr₀
      · cases x with
        | nil =>
          rw [List.nil_append] at hxy
          rw [← hxy, List.append_assoc] at hB
          exact Or.inr ⟨_, List.append_cancel_left hB⟩
        | cons x₀ xs =>
          exfalso
          have hysuf : y <:+ inQ := ⟨x₀ :: xs, hxy.symm⟩
          have hyne : y ≠ inQ := by
            intro hcon
            rw [hcon] at hxy
            have := congrArg List.length hxy
            simp only [List.length_append, List.length_cons] at this
            omega
          rcases tails26 y ((List.mem_tails _ _).mpr hysuf) with h1 | h1 | h1
          · exact hyne h1
          · exact hy h1
          · apply h1
            rw [inQ_head, List.cons_append, List.cons_append] at hB
            cases y with
            | nil => exact absurd rfl hy
            | cons y₀ ys =>
              rw [List.cons_append] at hB
              injection hB with hB1 _
              rw [hB1]
              rfl
      · rcases occ_in_append hB with ⟨v₀, hA'', hv'⟩ | ⟨x, y, hxy, hy, hA'', hB'⟩ |
          ⟨u₂, _, hB'⟩
        · have hk : u₁.length ∈ List.range (inQ ++ typL).length := by
            have hlen := congrArg List.length hA''
            simp only [List.length_append] at hlen
            have h1 : inQ.length = 6 := by decide
            have h2 : typL.length = 25 := by decide
            rw [List.mem_range]
            simp only [List.length_append]
            omega
          have hlead : leads inQ (List.drop u₁.length (inQ ++ typL)) = true := by
            rw [hA'', List.append_assoc, List.drop_left]
            exact leads_of_append _ _
          rcases occ28at0 u₁.length hk with h0 | hf
          · have hu₁ : u₁ = [] := List.eq_nil_of_length_eq_zero h0
            rw [hu₁, List.nil_append] at hA''
            have hv₀ : typL = v₀ := List.append_cancel_left hA''
            rw [hv', ← hv₀]
            exact Or.inr (List.prefix_append _ _)
          · rw [hlead] at hf
            simp at hf
        · cases x with
          | nil =>
            rw [List.nil_append] at hxy
            rw [← hxy] at hB'
            exact ihC [] v (by rw [hB', List.nil_append])
          | cons x₀ xs =>
            exfalso
            have hxpre : (x₀ :: xs) <+: inQ := ⟨y, hxy.symm⟩
            rcases inits26r28 _ ((List.mem_inits _ _).mpr hxpre) with h1 | h1 | h1
            · simp at h1
            · rw [h1] at hxy
              have := congrArg List.length hxy
              simp only [List.length_append] at this
              have : y.length = 0 := by omega
              exact hy (List.eq_nil_of_length_eq_zero this)
            · rw [trails_iff.mpr ⟨u₁, hA''.symm⟩] at h1
              simp at h1
        · exact ihC u₂ v hB'

theorem ctrl28 (o : L) (hA : CtrlA o) :
    Ctrl (rep (inE ++ typL) (inQ ++ typL) o) := by
  obtain ⟨cs, _, hjp, hjr, _⟩ := rep_decomp' (inQ ++ typL) p28_ne o
  rw [hjr]
  exact ctrl28_aux cs (hjp ▸ hA)

/-- The sanitizer's input-block output is controlled. -/
theorem T3_ctrl (u : L) : Ctrl (T3 u) :=
  ctrl28 _ (ctrlA27 _ (rep_self' inQ_ne self26ok u))

theorem T3_no_p27 (u : L) : ¬ (inE ++ disL) <:+: T3 u :=
  rep_pres p28_ne top2728ok (rep_self' p27_ne self27ok _)

theorem T3_no_p28 (u : L) : ¬ (inE ++ typL) <:+: T3 u :=
  rep_self' p28_ne self28ok _

theorem ctrl_shift {a o : L} (h : Ctrl (a ++ o)) : Ctrl o := by
  intro u v hv
  apply h (a ++ u) v
  rw [hv]
  simp [List.append_assoc]

theorem tails27 :
    ∀ y ∈ (inE ++ disL).tails, y = inE ++ disL ∨ y = [] ∨ y.head? ≠ some '&' := by
  decide

theorem tails28 :
    ∀ y ∈ (inE ++ typL).tails,
      y = inE ++ typL ∨ y = [] ∨ (y.head? ≠ some '&' ∧ y.head? ≠ some '<') := by
  decide

theorem initsP27inE :
    ∀ x ∈ (inE ++ disL).inits, x = [] ∨ x = inE ∨ trails x inE = false := by decide

theorem initsP28inQ :
    ∀ x ∈ (inE ++ typL).inits, x = [] ∨ trails x inQ = false := by decide

/-- A marker (` disabled` / ` type="checkbox" disabled`) that is a prefix of
a chunk join must already be a prefix of the first chunk, because markers
contain no `<`. -/
theorem marker_prefix_chunk {m : L} (hm : ∀ c ∈ m, c ≠ '<') :
    ∀ (d : L) (ds : List L), m <+: jn inQ (d :: ds) → m <+: d := by
  intro d ds h
  cases ds with
  | nil => exact h
  | cons e es =>
    rw [jn_cons₂, List.append_assoc] at h
    rcases prefix_split h with h1 | ⟨rest, hmEq, hrest⟩
    · exact h1
    · cases rest with
      | nil => rw [List.append_nil] at hmEq; exact ⟨[], by rw [hmEq, List.append_nil]⟩
      | cons r₀ rs =>
        exfalso
        have hr₀ : r₀ = '<' := by
          rw [inQ_head, List.cons_append] at hrest
          exact (List.cons_prefix_cons.mp hrest).1
        have hmem : r₀ ∈ m := by
          rw [hmEq]
          exact List.mem_append_right _ (List.mem_cons_self _ _)
        exact hm r₀ hmem hr₀

/-- In a controlled text, every chunk after the first starts with one of the
two markers. -/
theorem ctrl_chunks : ∀ (ds : List L) (c₀ : L), Ctrl (jn inQ (c₀ :: ds)) →
    ∀ d ∈ ds, disL <+: d ∨ typL <+: d := by
  intro ds
  induction ds with
  | nil => intro _ _ d hd; exact absurd hd (List.not_mem_nil d)
  | cons d ds' ih =>
    intro c₀ hC e he
    have hocc : jn inQ (c₀ :: d :: ds') = c₀ ++ inQ ++ jn inQ (d :: ds') :=
      jn_cons₂ inQ c₀ d ds'
    have hmark := hC c₀ (jn inQ (d :: ds')) hocc
    rcases List.mem_cons.mp he with rfl | hmem
    · rcases hmark with h1 | h1
      · exact Or.inl (marker_prefix_chunk dis_no_lt e ds' h1)
      · exact Or.inr (marker_prefix_chunk typ_no_lt e ds' h1)
    · have hC' : Ctrl (jn inQ (d :: ds')) := by
        apply @ctrl_shift (c₀ ++ inQ) _
        rw [← jn_cons₂]
        exact hC
      exact ih d hC' e hmem

theorem sepJoin_inE_shape (ds : List L) :
    sepJoin inE ds = [] ∨ ∃ t, sepJoin inE ds = '&' :: t := by
  cases ds with
  | nil => exact Or.inl rfl
  | cons d ds' =>
    refine Or.inr ⟨lc "lt;input" ++ d ++ sepJoin inE ds', ?_⟩
    show inE ++ d ++ sepJoin inE ds' = _
    have : inE = '&' :: lc "lt;input" := by decide
    rw [this]
    simp

theorem mixJoin_shape (ds : List L) :
    mixJoin ds = [] ∨ (∃ t, mixJoin ds = '&' :: t) ∨ ∃ t, mixJoin ds = '<' :: t := by
  cases ds with
  | nil => exact Or.inl rfl
  | cons d ds' =>
    show mixJoin (d :: ds') = _ ∨ _ ∨ _
    by_cases h : leads disL d = true
    · refine Or.inr (Or.inr ⟨lc "input" ++ d ++ mixJoin ds', ?_⟩)
      show (if leads disL d = true then inQ else inE) ++ d ++ mixJoin ds' = _
      rw [if_pos h, inQ_head]
      simp
    · refine Or.inr (Or.inl ⟨lc "lt;input" ++ d ++ mixJoin ds', ?_⟩)
      show (if leads disL d = true then inQ else inE) ++ d ++ mixJoin ds' = _
      rw [if_neg h]
      have : inE = '&' :: lc "lt;input" := by decide
      rw [this]
      simp

theorem split_cond27 {b : L} (hb : b = [] ∨ ∃ t, b = '&' :: t) :
    ∀ y, y <:+ (inE ++ disL) → y ≠ [] → y ≠ inE ++ disL → ¬ y <+: b := by
  intro y hy hne hnep hpre
  rcases hb with rfl | ⟨t, rfl⟩
  · exact hne (List.prefix_nil.mp hpre)
  · rcases tails27 y ((List.mem_tails _ _).mpr hy) with h1 | h1 | h1
    · exact hnep h1
    · exact hne h1
    · apply h1
      cases y with
      | nil => exact absurd rfl hne
      | cons y₀ ys =>
        rw [(List.cons_prefix_cons.mp hpre).1]
        rfl

theorem split_cond28 {b : L}
    (hb : b = [] ∨ (∃ t, b = '&' :: t) ∨ ∃ t, b = '<' :: t) :
    ∀ y, y <:+ (inE ++ typL) → y ≠ [] → y ≠ inE ++ typL → ¬ y <+: b := by
  intro y hy hne hnep hpre
  rcases tails28 y ((List.mem_tails _ _).mpr hy) with h1 | h1 | h1
  · exact hnep h1
  · exact hne h1
  · rcases hb with rfl | ⟨t, rfl⟩ | ⟨t, rfl⟩
    · exact hne (List.prefix_nil.mp hpre)
    · apply h1.1
      cases y with
      | nil => exact absurd rfl hne
      | cons y₀ ys =>
        rw [(List.cons_prefix_cons.mp hpre).1]
        rfl
    · apply h1.2
      cases y with
      | nil => exact absurd rfl hne
      | cons y₀ ys =>
        rw [(List.cons_prefix_cons.mp hpre).1]
        rfl

theorem not_occ_nil_chunk {p : L} (hp : p ≠ []) : ¬ p <:+: ([] : L) :=
  fun h => hp (List.eq_nil_of_infix_nil h)

/-- The first re-admission rule on the escaped join: it rewrites exactly
the boundaries whose chunk starts with ` disabled`. -/
theorem lem27 : ∀ ds : List L,
    (∀ d ∈ ds, (disL <+: d ∨ typL <+: d) ∧ ¬ (inE ++ disL) <:+: d) →
    ∀ c₀ : L, ¬ (inE ++ disL) <:+: c₀ →
    rep (inE ++ disL) (inQ ++ disL) (c₀ ++ sepJoin inE ds) = c₀ ++ mixJoin ds := by
  intro ds
  induction ds with
  | nil =>
    intro _ c₀ hc₀
    show rep _ _ (c₀ ++ []) = c₀ ++ []
    rw [List.append_nil, rep_no_occ hc₀]
  | cons d ds' ih =>
    intro hch c₀ hc₀
    obtain ⟨hmark, hnod⟩ := hch d (List.mem_cons_self d ds')
    have hch' : ∀ d' ∈ ds', (disL <+: d' ∨ typL <+: d') ∧ ¬ (inE ++ disL) <:+: d' :=
      fun d' hd' => hch d' (List.mem_cons_of_mem d hd')
    have hihnil := ih hch' [] (not_occ_nil_chunk p27_ne)
    rw [List.nil_append, List.nil_append] at hihnil
    have hsplit0 : rep (inE ++ disL) (inQ ++ disL) (c₀ ++ sepJoin inE (d :: ds')) =
        c₀ ++ rep (inE ++ disL) (inQ ++ disL) (sepJoin inE (d :: ds')) := by
      apply rep_split p27_ne c₀ _ hc₀
      exact split_cond27 (sepJoin_inE_shape (d :: ds'))
    rw [hsplit0]
    congr 1
    by_cases hld : leads disL d = true
    · obtain ⟨d', hd'⟩ := leads_iff.mp hld
      have hstep : sepJoin inE (d :: ds') =
          (inE ++ disL) ++ (d' ++ sepJoin inE ds') := by
        show inE ++ d ++ sepJoin inE ds' = _
        rw [← hd']
        simp [List.append_assoc]
      rw [hstep, rep_head_match _ _ p27_ne]
      have hnod' : ¬ (inE ++ disL) <:+: d' := fun h =>
        hnod (h.trans (List.IsSuffix.isInfix ⟨disL, hd'⟩))
      rw [rep_split p27_ne d' _ hnod' (split_cond27 (sepJoin_inE_shape ds'))]
      rw [hihnil]
      show inQ ++ disL ++ (d' ++ mixJoin ds') = mixJoin (d :: ds')
      show inQ ++ disL ++ (d' ++ mixJoin ds') =
        (if leads disL d = true then inQ else inE) ++ d ++ mixJoin ds'
      rw [if_pos hld, ← hd']
      simp [List.append_assoc]
    · have htyp : typL <+: d := by
        rcases hmark with h1 | h1
        · rw [leads_iff.mpr h1] at hld
          simp at hld
        · exact h1
      have hnoA : ¬ (inE ++ disL) <:+: (inE ++ d) := by
        intro h
        rcases infix_append_cases h with h1 | h1 | ⟨x, y, hxy, hx, hy, hxs, hyp2⟩
        · have := h1.length_le
          have e1 : (inE ++ disL).length = 18 := by decide
          have e2 : inE.length = 9 := by decide
          omega
        · exact hnod h1
        · rcases initsP27inE x ((List.mem_inits _ _).mpr ⟨y, hxy.symm⟩)
            with h2 | h2 | h2
          · exact hx h2
          · rw [h2] at hxy
            have hydis : y = disL := List.append_cancel_left hxy.symm
            rw [hydis] at hyp2
            rw [leads_iff.mpr hyp2] at hld
            simp at hld
          · rw [trails_iff.mpr hxs] at h2
            simp at h2
      have hstep : sepJoin inE (d :: ds') = (inE ++ d) ++ sepJoin inE ds' := by
        show inE ++ d ++ sepJoin inE ds' = _
        simp [List.append_assoc]
      rw [hstep, rep_split p27_ne (inE ++ d) _ hnoA
        (split_cond27 (sepJoin_inE_shape ds'))]
      rw [hihnil]
      show inE ++ d ++ mixJoin ds' =
        (if leads disL d = true then inQ else inE) ++ d ++ mixJoin ds'
      rw [if_neg hld]

/-- The second re-admission rule on the mixed join: it rewrites exactly the
remaining escaped boundaries, whose chunks start with the checkbox marker. -/
theorem lem28 : ∀ ds : List L,
    (∀ d ∈ ds, (disL <+: d ∨ typL <+: d) ∧ ¬ (inE ++ typL) <:+: d) →
    ∀ c₀ : L, ¬ (inE ++ typL) <:+: c₀ →
    rep (inE ++ typL) (inQ ++ typL) (c₀ ++ mixJoin ds) = c₀ ++ sepJoin inQ ds := by
  intro ds
  induction ds with
  | nil =>
    intro _ c₀ hc₀
    show rep _ _ (c₀ ++ []) = c₀ ++ []
    rw [List.append_nil, rep_no_occ hc₀]
  | cons d ds' ih =>
    intro hch c₀ hc₀
    obtain ⟨hmark, hnod⟩ := hch d (List.mem_cons_self d ds')
    have hch' : ∀ d' ∈ ds', (disL <+: d' ∨ typL <+: d') ∧ ¬ (inE ++ typL) <:+: d' :=
      fun d' hd' => hch d' (List.mem_cons_of_mem d hd')
    have hihnil := ih hch' [] (not_occ_nil_chunk p28_ne)
    rw [List.nil_append, List.nil_append] at hihnil
    have hsplit0 : rep (inE ++ typL) (inQ ++ typL) (c₀ ++ mixJoin (d :: ds')) =
        c₀ ++ rep (inE ++ typL) (inQ ++ typL) (mixJoin (d :: ds')) := by
      apply rep_split p28_ne c₀ _ hc₀
      exact split_cond28 (mixJoin_shape (d :: ds'))
    rw [hsplit0]
    congr 1
    by_cases hld : leads disL d = true
    · have hnoA : ¬ (inE ++ typL) <:+: (inQ ++ d) := by
        intro h
        rcases infix_append_cases h with h1 | h1 | ⟨x, y, hxy, hx, hy, hxs, _⟩
        · have := h1.length_le
          have e1 : (inE ++ typL).length = 34 := by decide
          have e2 : inQ.length = 6 := by decide
          omega
        · exact hnod h1
        · rcases initsP28inQ x ((List.mem_inits _ _).mpr ⟨y, hxy.symm⟩) with h2 | h2
          · exact hx h2
          · rw [trails_iff.mpr hxs] at h2
            simp at h2
      have hstep : mixJoin (d :: ds') = (inQ ++ d) ++ mixJoin ds' := by
        show (if leads disL d = true then inQ else inE) ++ d ++ mixJoin ds' = _
        rw [if_pos hld]
      rw [hstep, rep_split p28_ne (inQ ++ d) _ hnoA
        (split_cond28 (mixJoin_shape ds'))]
      rw [hihnil]
      show inQ ++ d ++ sepJoin inQ ds' = sepJoin inQ (d :: ds')
      rfl
    · have htyp : typL <+: d := by
        rcases hmark with h1 | h1
        · rw [leads_iff.mpr h1] at hld
          simp at hld
        · exact h1
      obtain ⟨d'', hd''⟩ := htyp
      have hstep : mixJoin (d :: ds') = (inE ++ typL) ++ (d'' ++ mixJoin ds') := by
        show (if leads disL d = true then inQ else inE) ++ d ++ mixJoin ds' = _
        rw [if_neg hld, ← hd'']
        simp [List.append_assoc]
      rw [hstep, rep_head_match _ _ p28_ne]
      have hnod'' : ¬ (inE ++ typL) <:+: d'' := fun h =>
        hnod (h.trans (List.IsSuffix.isInfix ⟨typL, hd''⟩))
      rw [rep_split p28_ne d'' _ hnod'' (split_cond28 (mixJoin_shape ds'))]
      rw [hihnil]
      show inQ ++ typL ++ (d'' ++ sepJoin inQ ds') = sepJoin inQ (d :: ds')
      show inQ ++ typL ++ (d'' ++ sepJoin inQ ds') = inQ ++ d ++ sepJoin inQ ds'
      rw [← hd'']
      simp [List.append_assoc]

/-- On a controlled text free of the two escaped-input patterns, the whole
input block is the identity. -/
theorem T3_restore (o : L) (hC : Ctrl o) (h27 : ¬ (inE ++ disL) <:+: o)
    (h28 : ¬ (inE ++ typL) <:+: o) : T3 o = o := by
  obtain ⟨cs, hne, hjp, hjr, _⟩ := rep_decomp' inE inQ_ne o
  cases cs with
  | nil => exact absurd rfl hne
  | cons c₀ ds =>
    have hch : ∀ d ∈ c₀ :: ds, ¬ (inE ++ disL) <:+: d ∧ ¬ (inE ++ typL) <:+: d := by
      intro d hd
      have hinf : d <:+: o := hjp ▸ jn_chunk_infix d hd
      exact ⟨fun h => h27 (h.trans hinf), fun h => h28 (h.trans hinf)⟩
    have hmark : ∀ d ∈ ds, disL <+: d ∨ typL <+: d :=
      ctrl_chunks ds c₀ (hjp ▸ hC)
    show rep (inE ++ typL) (inQ ++ typL)
      (rep (inE ++ disL) (inQ ++ disL) (rep inQ inE o)) = o
    rw [hjr, jn_eq_sepJoin]
    rw [lem27 ds (fun d hd => ⟨hmark d hd, (hch d (List.mem_cons_of_mem c₀ hd)).1⟩)
      c₀ (hch c₀ (List.mem_cons_self c₀ ds)).1]
    rw [lem28 ds (fun d hd => ⟨hmark d hd, (hch d (List.mem_cons_of_mem c₀ hd)).2⟩)
      c₀ (hch c₀ (List.mem_cons_self c₀ ds)).2]
    rw [← jn_eq_sepJoin, ← hjp]

/-- The input block is idempotent on every input. -/
theorem T3_idem (u : L) : T3 (T3 u) = T3 u :=
  T3_restore (T3 u) (T3_ctrl u) (T3_no_p27 u) (T3_no_p28 u)

theorem sanitize_front_noop (x : L) :
    applyRules frontRules (sanitize_html x) = sanitize_html x :=
  applyRules_no_occ frontRules fun _ hpr => sanitize_no_front hpr x

theorem escape_contained {pat esc : L} {rs₁ rs₂ : List (L × L)}
    (hsplit : sanitizeRules = rs₁ ++ (pat, esc) :: rs₂)
    (hok : escOK pat esc rs₁ rs₂ = true)
    {x : L} (hx : pat <:+: x) : esc <:+: sanitize_html x := by
  unfold escOK at hok
  rw [Bool.and_eq_true, Bool.and_eq_true, Bool.and_eq_true] at hok
  obtain ⟨⟨⟨hp, he⟩, h1⟩, h2⟩ := hok
  have hpat : pat ≠ [] := by
    intro hnil; rw [hnil] at hp; simp at hp
  have hesc : esc ≠ [] := by
    intro hnil; rw [hnil] at he; simp at he
  have hstep : sanitize_html x = applyRules rs₂ (rep pat esc (applyRules rs₁ x)) := by
    show applyRules sanitizeRules x = _
    rw [hsplit, applyRules_append, applyRules_cons]
  rw [hstep]
  have hcond : ∀ pr ∈ rs₂, pr.1 ≠ [] ∧ survOK esc pr.1 pr.2 = true := by
    intro pr hpr
    have hb := (List.all_eq_true.mp h2) pr hpr
    rw [Bool.and_eq_true] at hb
    refine ⟨?_, hb.2⟩
    intro hnil; rw [hnil] at hb; simp at hb
  apply applyRules_surv hesc rs₂ hcond
  apply rep_intro' hpat
  have hcond1 : ∀ pr ∈ rs₁, pr.1 ≠ [] ∧ survOK pat pr.1 pr.2 = true := by
    intro pr hpr
    have hb := (List.all_eq_true.mp h1) pr hpr
    rw [Bool.and_eq_true] at hb
    refine ⟨?_, hb.2⟩
    intro hnil; rw [hnil] at hb; simp at hb
  exact applyRules_surv hpat rs₁ hcond1 x hx

/-- C1: the sanitizer is idempotent: re-applying the full ordered rule list
to its own output produces no further change. -/
theorem c1_sanitize_idempotent (x : L) :
    sanitize_html (sanitize_html x) = sanitize_html x := by
  rw [sanitize_as_T3 (sanitize_html x), sanitize_front_noop x, sanitize_as_T3 x,
    T3_idem]

/-- C2 counterexample: on the empty input the output contains no escaped
form at all, so "the output does contain `&lt;` followed by that name" fails
as a statement about every input string. -/
theorem c2_counterexample :
    occursB (lc "&lt;script") (sanitize_html (lc "")) = false := by decide

/-- C2 (amended): for every input string and dangerous tag name, the output
of `sanitize_html` contains no literal `<name`; and whenever the input
contains `<name`, the output contains the escaped form `&lt;name`. -/
theorem c2_dangerous_tags_escaped :
    ∀ t ∈ dangerous_tags, ∀ x : L,
      ¬ (lc ("<" ++ t)) <:+: sanitize_html x ∧
      ((lc ("<" ++ t)) <:+: x → (lc ("&lt;" ++ t)) <:+: sanitize_html x) := by
  intro t ht x
  simp only [dangerous_tags, List.mem_cons, List.not_mem_nil, or_false] at ht
  rcases ht with rfl | rfl | rfl | rfl | rfl | rfl | rfl | rfl
  · exact ⟨@sanitize_no_front (lc "<script", lc "&lt;script") (by decide) x,
      @escape_contained _ _ (List.take 0 sanitizeRules)
        (List.drop 1 sanitizeRules) (by decide) (by decide) x⟩
  · exact ⟨@sanitize_no_front (lc "<iframe", lc "&lt;iframe") (by decide) x,
      @escape_contained _ _ (List.take 2 sanitizeRules)
        (List.drop 3 sanitizeRules) (by decide) (by decide) x⟩
  · exact ⟨@sanitize_no_front (lc "<object", lc "&lt;object") (by decide) x,
      @escape_contained _ _ (List.take 4 sanitizeRules)
        (List.drop 5 sanitizeRules) (by decide) (by decide) x⟩
  · exact ⟨@sanitize_no_front (lc "<embed", lc "&lt;embed") (by decide) x,
      @escape_contained _ _ (List.take 6 sanitizeRules)
        (List.drop 7 sanitizeRules) (by decide) (by decide) x⟩
  · exact ⟨@sanitize_no_front (lc "<form", lc "&lt;form") (by decide) x,
      @escape_contained _ _ (List.take 8 sanitizeRules)
        (List.drop 9 sanitizeRules) (by decide) (by decide) x⟩
  · exact ⟨@sanitize_no_front (lc "<meta", lc "&lt;meta") (by decide) x,
      @escape_contained _ _ (List.take 10 sanitizeRules)
        (List.drop 11 sanitizeRules) (by decide) (by decide) x⟩
  · exact ⟨@sanitize_no_front (lc "<link", lc "&lt;link") (by decide) x,
      @escape_contained _ _ (List.take 12 sanitizeRules)
        (List.drop 13 sanitizeRules) (by decide) (by decide) x⟩
  · exact ⟨@sanitize_no_front (lc "<style", lc "&lt;style") (by decide) x,
      @escape_contained _ _ (List.take 14 sanitizeRules)
        (List.drop 15 sanitizeRules) (by decide) (by decide) x⟩

/-- C2 witness: on a concrete script input, the escaped form appears. -/
theorem c2_witness :
    (lc "&lt;script") <:+: sanitize_html (lc "<script>x</script>") :=
  (c2_dangerous_tags_escaped "script" (by decide) (lc "<script>x</script>")).2
    (by decide)

/-- C3: `sanitize_html` leaves `<input disabled>` unchanged, escapes
`<input type="text">`, and the blanket `<input` rewrite is listed before
the two re-admission rewrites. -/
theorem c3_input_handling :
    sanitize_html (lc "<input disabled>") = lc "<input disabled>" ∧
    sanitize_html (lc "<input type=\"text\">") = lc "&lt;input type=\"text\">" ∧
    List.drop 26 sanitizeRules =
      [(lc "<input", lc "&lt;input"),
       (lc "&lt;input disabled", lc "<input disabled"),
       (lc "&lt;input type=\"checkbox\" disabled",
        lc "<input type=\"checkbox\" disabled")] := by
  refine ⟨by decide, by decide, by decide⟩

/-! ## Theme script (C4) -/

set_option maxRecDepth 10000 in
/-- C4: the generated document contains the theme-switching script, with both
the dark and the light CSS-variable assignment sets, precisely when the theme
is `auto`; for every other theme the script slot is the empty string. -/
theorem c4_theme_script_iff_auto (render urlenc : L → L)
    (markdown font_size font theme accent : L)
    (accent_light accent_dark favicon : Option L) :
    (theme ≠ lc "auto" → theme_script theme accent accent_light accent_dark = []) ∧
    (theme = lc "auto" →
      darkVars <:+: theme_script theme accent accent_light accent_dark ∧
      lightVars <:+: theme_script theme accent accent_light accent_dark ∧
      ∃ X Y, generate_html render urlenc markdown font_size font theme accent
          accent_light accent_dark favicon =
        X ++ theme_script theme accent accent_light accent_dark ++ Y) := by
  constructor
  · intro h
    unfold theme_script
    rw [if_neg h]
  · intro h
    subst h
    refine ⟨?_, ?_, ?_⟩
    · unfold theme_script
      rw [if_pos rfl]
      exact List.IsInfix.trans
        (show darkVars <:+: scrA from occursB_iff.mp (by decide))
        (List.prefix_append scrA _).isInfix
    · unfold theme_script
      rw [if_pos rfl]
      exact List.IsInfix.trans
        (show lightVars <:+: scrB from occursB_iff.mp (by decide))
        ⟨scrA ++ accent_dark.getD accent, accent_light.getD accent ++ scrC,
          by simp [List.append_assoc]⟩
    · refine ⟨tplA ++ (extract_title markdown).getD (lc "Static Site") ++ tplB ++
          favicon_link urlenc favicon ++ tplC ++ css_variables (lc "auto") accent ++
          tplD ++ font ++ tplE ++ font_size ++ tplF,
        tplG ++ sanitize_html (render markdown) ++ tplH, ?_⟩
      simp only [generate_html, List.append_assoc]

theorem c4_witness :
    theme_script (lc "dark") (lc "#36c") none none = [] ∧
    darkVars <:+: theme_script (lc "auto") (lc "#36c") none none := by
  constructor
  · exact (c4_theme_script_iff_auto id id [] [] [] (lc "dark") (lc "#36c")
      none none none).1 (by decide)
  · exact ((c4_theme_script_iff_auto id id [] [] [] (lc "auto") (lc "#36c")
      none none none).2 rfl).1

/-! ## Color validation (C5) -/

theorem utf8Size_of_hex {c : Char} (h : isHexDig c = true) : c.utf8Size = 1 := by
  simp only [isHexDig, Bool.or_eq_true, Bool.and_eq_true, decide_eq_true_eq] at h
  have h127 : c.val ≤ UInt32.ofNatCore 127 Char.utf8Size.proof_1 := by
    rw [UInt32.le_def, BitVec.le_def]
    have hlit : (UInt32.ofNatCore 127 Char.utf8Size.proof_1).toBitVec.toNat = 127 := rfl
    rw [hlit]
    rcases h with (h1 | h1) | h1 <;>
      · have h2 := h1.2
        rw [Char.le_def, UInt32.le_def, BitVec.le_def] at h2
        have hv : ((('9').val.toBitVec.toNat = 57 ∧ ('f').val.toBitVec.toNat = 102) ∧
            ('F').val.toBitVec.toNat = 70) := by decide
        omega
  unfold Char.utf8Size
  rw [if_pos h127]

theorem utf8Len_of_hex {l : L} (h : l.all isHexDig = true) :
    utf8Len l = l.length := by
  induction l with
  | nil => rfl
  | cons c cs ih =>
    rw [List.all_cons, Bool.and_eq_true] at h
    simp only [utf8Len, List.map_cons, List.sum_cons, List.length_cons] at ih ⊢
    rw [utf8Size_of_hex h.1, ih h.2]
    omega

theorem validate_color_named (lower : L → L) (color : L)
    (hc : ∀ rest, color ≠ '#' :: rest) :
    validate_color lower color =
      (if (named_colors.map lc).contains (lower color) then Except.ok ()
       else Except.error (lc "Invalid color: " ++ color ++
         lc ". Use hex codes (#ff0000) or named colors (red, blue, etc)")) := by
  rcases color with _ | ⟨c0, rest0⟩
  · rfl
  · have hc0 : c0 ≠ '#' := fun h => hc rest0 (by rw [h])
    rw [validate_color.eq_def]
    split
    · rename_i hex heq
      injection heq with h1 h2
      exact absurd h1 hc0
    · rfl

theorem named_colors_head (s : String) (hs : s ∈ named_colors) :
    (lc s).head? ≠ some '#' := by
  fin_cases hs <;> decide

theorem named_no_hash (x : L) :
    ((named_colors.map lc).contains ('#' :: x)) = false := by
  rw [Bool.eq_false_iff]
  intro hcon
  have hmem : ('#' :: x) ∈ named_colors.map lc := by
    simpa [List.contains, List.elem_iff] using hcon
  rcases List.mem_map.mp hmem with ⟨s, hs, heq⟩
  exact named_colors_head s hs (by rw [heq]; rfl)

theorem spec_hex_true (lower : L → L) {color : L}
    (h : (leads (lc "#") color &&
      (((List.drop 1 color).length == 3 || (List.drop 1 color).length == 4 ||
        (List.drop 1 color).length == 6 || (List.drop 1 color).length == 8) &&
       (List.drop 1 color).all isHexDig)) = true) :
    validateColorSpec lower color = true := by
  unfold validateColorSpec
  rw [h]
  rfl

theorem spec_named_true (lower : L → L) {color : L}
    (h : ((named_colors.map lc).contains (lower color)) = true) :
    validateColorSpec lower color = true := by
  unfold validateColorSpec
  rw [h, Bool.or_true]

/-- C5: with the external Unicode lowercasing assumed only to act as ASCII
lowercasing on ASCII tokens and to preserve a leading `#`, the validator
accepts exactly the tokens described by the spec (a hex token of 3, 4, 6 or
8 hex digits after a leading `#`, or a case-insensitive named color), every
error message carries the offending token verbatim, and the spec's five
examples evaluate as stated; the function only reads the token, so it never
normalizes or mutates it. -/
theorem c5_validate_color (lower : L → L)
    (hascii : ∀ s : L, asciiOnly s = true → lower s = s.map lowerAscii)
    (hhash : ∀ s : L, ∃ s₂, lower ('#' :: s) = '#' :: s₂) :
    (∀ color : L,
      (validate_color lower color = Except.ok () ↔
        validateColorSpec lower color = true) ∧
      (∀ e, validate_color lower color = Except.error e → color <:+: e)) ∧
    validate_color lower (lc "#ff0000") = Except.ok () ∧
    validate_color lower (lc "#ff00") = Except.ok () ∧
    validate_color lower (lc "RED") = Except.ok () ∧
    ¬ validate_color lower (lc "#fff000a") = Except.ok () ∧
    ¬ validate_color lower (lc "chartreuse") = Except.ok () := by
  have hlc : lc "#" = ['#'] := by decide
  have hmain : ∀ color : L,
      (validate_color lower color = Except.ok () ↔
        validateColorSpec lower color = true) ∧
      (∀ e, validate_color lower color = Except.error e → color <:+: e) := by
    intro color
    rcases color with _ | ⟨c, rest⟩
    · rw [validate_color_named lower [] (fun rest h => List.noConfusion h)]
      constructor
      · by_cases hcon : ((named_colors.map lc).contains (lower [])) = true
        · rw [if_pos hcon]
          apply iff_of_true rfl
          unfold validateColorSpec
          rw [hcon]
          simp
        · rw [if_neg hcon]
          apply iff_of_false
          · intro h
            exact Except.noConfusion h
          · unfold validateColorSpec
            rw [Bool.eq_false_iff.mpr hcon]
            have hl : leads (lc "#") ([] : L) = false := by decide
            rw [hl]
            simp
      · intro e _
        exact ⟨[], e, rfl⟩
    · by_cases hc : c = '#'
      · subst hc
        constructor
        · have hrhs : validateColorSpec lower ('#' :: rest) =
              ((rest.length == 3 || rest.length == 4 ||
                rest.length == 6 || rest.length == 8) && rest.all isHexDig) := by
            unfold validateColorSpec
            rw [hlc]
            rcases hhash rest with ⟨s₂, hs₂⟩
            rw [hs₂, named_no_hash]
            simp [leads]
          rw [hrhs]
          simp only [validate_color]
          by_cases h2 : rest.all isHexDig = true
          · have hlen := utf8Len_of_hex h2
            by_cases h1 : utf8Len rest = 3 ∨ utf8Len rest = 4 ∨
                utf8Len rest = 6 ∨ utf8Len rest = 8
            · rw [if_pos h1, if_pos h2]
              apply iff_of_true rfl
              simp only [Bool.and_eq_true, Bool.or_eq_true, beq_iff_eq]
              exact ⟨by omega, h2⟩
            · rw [if_neg h1]
              apply iff_of_false
              · intro h
                exact Except.noConfusion h
              · intro h
                simp only [Bool.and_eq_true, Bool.or_eq_true, beq_iff_eq] at h
                rcases h with ⟨hlens, -⟩
                exact h1 (by omega)
          · apply iff_of_false
            · by_cases h1 : utf8Len rest = 3 ∨ utf8Len rest = 4 ∨
                  utf8Len rest = 6 ∨ utf8Len rest = 8
              · rw [if_pos h1, if_neg h2]
                intro h
                exact Except.noConfusion h
              · rw [if_neg h1]
                intro h
                exact Except.noConfusion h
            · intro h
              simp only [Bool.and_eq_true] at h
              exact h2 h.2
        · intro e he
          simp only [validate_color] at he
          by_cases h1 : utf8Len rest = 3 ∨ utf8Len rest = 4 ∨
              utf8Len rest = 6 ∨ utf8Len rest = 8
          · rw [if_pos h1] at he
            by_cases h2 : rest.all isHexDig = true
            · rw [if_pos h2] at he
              exact Except.noConfusion he
            · rw [if_neg h2] at he
              injection he with he
              rw [← he]
              exact (List.suffix_append _ _).isInfix
          · rw [if_neg h1] at he
            injection he with he
            rw [← he]
            exact (List.suffix_append _ _).isInfix
      · have hc0 : ∀ r : L, c :: rest ≠ '#' :: r := by
          intro r hr
          injection hr with h1 h2
          exact hc h1
        rw [validate_color_named lower (c :: rest) hc0]
        constructor
        · by_cases hcon : ((named_colors.map lc).contains (lower (c :: rest))) = true
          · rw [if_pos hcon]
            apply iff_of_true rfl
            unfold validateColorSpec
            rw [hcon]
            simp
          · rw [if_neg hcon]
            apply iff_of_false
            · intro h
              exact Except.noConfusion h
            · unfold validateColorSpec
              rw [Bool.eq_false_iff.mpr hcon, hlc]
              have hne : ('#' == c) = false := by
                rw [beq_eq_false_iff_ne]
                exact fun h => hc h.symm
              have hl : leads ['#'] (c :: rest) = false := by
                simp [leads, hne]
              rw [hl]
              simp
        · intro e he
          by_cases hcon : ((named_colors.map lc).contains (lower (c :: rest))) = true
          · rw [if_pos hcon] at he
            exact Except.noConfusion he
          · rw [if_neg hcon] at he
            injection he with he
            exact ⟨lc "Invalid color: ",
              lc ". Use hex codes (#ff0000) or named colors (red, blue, etc)", he⟩
  refine ⟨hmain, ?_, ?_, ?_, ?_, ?_⟩
  · exact (hmain _).1.mpr (spec_hex_true lower (by decide))
  · exact (hmain _).1.mpr (spec_hex_true lower (by decide))
  · refine (hmain _).1.mpr (spec_named_true lower ?_)
    rw [hascii _ (by decide)]
    decide
  · intro h
    have hsp := (hmain _).1.mp h
    unfold validateColorSpec at hsp
    rw [show lc "#fff000a" = '#' :: lc "fff000a" from by decide] at hsp
    rcases hhash (lc "fff000a") with ⟨s₂, hs₂⟩
    rw [hs₂, named_no_hash] at hsp
    exact absurd hsp (by decide)
  · intro h
    have hsp := (hmain _).1.mp h
    unfold validateColorSpec at hsp
    rw [hascii _ (by decide)] at hsp
    exact absurd hsp (by decide)

theorem c5_witness :
    validate_color (List.map lowerAscii) (lc "#ff0000") = Except.ok () ∧
    validate_color (List.map lowerAscii) (lc "RED") = Except.ok () ∧
    ¬ validate_color (List.map lowerAscii) (lc "chartreuse") = Except.ok () ∧
    lc "chartreuse" <:+:
      lc "Invalid color: chartreuse. Use hex codes (#ff0000) or named colors (red, blue, etc)" := by
  have hhc : lowerAscii '#' = '#' := by decide
  have h := c5_validate_color (List.map lowerAscii) (fun s _ => rfl)
    (fun s => ⟨List.map lowerAscii s, by rw [List.map_cons, hhc]⟩)
  exact ⟨h.2.1, h.2.2.2.1, h.2.2.2.2.2,
    (h.1 (lc "chartreuse")).2 _ (by decide)⟩

/-! ## Title extraction (C6) -/

theorem findSome_first (f : L → Option L) :
    ∀ (ls : List L) (b : L),
      ls.findSome? f = some b ↔
        ∃ pre x post, ls = pre ++ x :: post ∧
          (∀ l ∈ pre, f l = none) ∧ f x = some b := by
  intro ls
  induction ls with
  | nil =>
    intro b
    constructor
    · intro h
      exact absurd h (by simp [List.findSome?])
    · rintro ⟨pre, x, post, h, -, -⟩
      exact absurd h (by simp)
  | cons a as ih =>
    intro b
    cases hfa : f a with
    | some c =>
      simp only [List.findSome?_cons, hfa]
      constructor
      · intro h
        injection h with hcb
        exact ⟨[], a, as, rfl, fun l hl => absurd hl (List.not_mem_nil l),
          by rw [hfa, hcb]⟩
      · rintro ⟨pre, x, post, hsplit, hpre, hx⟩
        cases pre with
        | nil =>
          simp only [List.nil_append] at hsplit
          injection hsplit with h1 h2
          rw [← h1] at hx
          rw [hfa] at hx
          exact hx
        | cons p ps =>
          injection hsplit with h1 h2
          have h3 : f a = none := by
            rw [h1]
            exact hpre p (List.mem_cons_self p ps)
          rw [hfa] at h3
          exact absurd h3 (by simp)
    | none =>
      simp only [List.findSome?_cons, hfa]
      rw [ih b]
      constructor
      · rintro ⟨pre, x, post, hsplit, hpre, hx⟩
        refine ⟨a :: pre, x, post, by rw [List.cons_append, hsplit], ?_, hx⟩
        intro l hl
        rcases List.mem_cons.mp hl with rfl | hl2
        · exact hfa
        · exact hpre l hl2
      · rintro ⟨pre, x, post, hsplit, hpre, hx⟩
        cases pre with
        | nil =>
          simp only [List.nil_append] at hsplit
          injection hsplit with h1 h2
          rw [← h1] at hx
          rw [hfa] at hx
          exact absurd hx (by simp)
        | cons p ps =>
          injection hsplit with h1 h2
          exact ⟨ps, x, post, h2, fun l hl => hpre l (List.mem_cons_of_mem p hl), hx⟩

theorem findSome_none (f : L → Option L) :
    ∀ ls : List L, ls.findSome? f = none ↔ ∀ l ∈ ls, f l = none := by
  intro ls
  induction ls with
  | nil => simp [List.findSome?]
  | cons a as ih =>
    cases hfa : f a with
    | some c =>
      simp only [List.findSome?_cons, hfa]
      constructor
      · intro h
        exact absurd h (by simp)
      · intro hall
        have h2 := hall a (List.mem_cons_self a as)
        rw [hfa] at h2
        exact absurd h2 (by simp)
    | none =>
      simp only [List.findSome?_cons, hfa]
      rw [ih]
      constructor
      · intro h l hl
        rcases List.mem_cons.mp hl with rfl | hl2
        · exact hfa
        · exact h l hl2
      · intro h l hl
        exact h l (List.mem_cons_of_mem a hl)

/-- C6: the title is the trimmed remainder of the first line (in document
order) whose trimmed form starts with the literal prefix `# `; it is `none`
exactly when no line qualifies, and then the document carries the fixed
default `<title>Static Site</title>`. -/
theorem c6_extract_title (render urlenc : L → L)
    (markdown font_size font theme accent : L)
    (accent_light accent_dark favicon : Option L) :
    (∀ title, extract_title markdown = some title ↔
      ∃ pre line post, rustLines markdown = pre ++ line :: post ∧
        (∀ l ∈ pre, leads (lc "# ") (trim l) = false) ∧
        leads (lc "# ") (trim line) = true ∧
        title = trim (List.drop 2 (trim line))) ∧
    (extract_title markdown = none ↔
      ∀ line ∈ rustLines markdown, leads (lc "# ") (trim line) = false) ∧
    (extract_title markdown = none →
      lc "<title>Static Site</title>" <:+:
        generate_html render urlenc markdown font_size font theme accent
          accent_light accent_dark favicon) := by
  refine ⟨?_, ?_, ?_⟩
  · intro title
    unfold extract_title
    rw [findSome_first]
    constructor
    · rintro ⟨pre, x, post, hsplit, hpre, hx⟩
      by_cases hl : leads (lc "# ") (trim x) = true
      · refine ⟨pre, x, post, hsplit, ?_, hl, ?_⟩
        · intro l hl2
          have h3 := hpre l hl2
          by_cases hh : leads (lc "# ") (trim l) = true
          · rw [if_pos hh] at h3
            exact absurd h3 (by simp)
          · exact Bool.eq_false_iff.mpr hh
        · rw [if_pos hl] at hx
          injection hx with hx
          exact hx.symm
      · rw [if_neg hl] at hx
        exact absurd hx (by simp)
    · rintro ⟨pre, x, post, hsplit, hpre, hl, ht⟩
      refine ⟨pre, x, post, hsplit, ?_, ?_⟩
      · intro l hl2
        rw [if_neg]
        rw [hpre l hl2]
        simp
      · rw [if_pos hl, ht]
  · unfold extract_title
    rw [findSome_none]
    constructor
    · intro h line hline
      have h2 := h line hline
      by_cases hh : leads (lc "# ") (trim line) = true
      · rw [if_pos hh] at h2
        exact absurd h2 (by simp)
      · exact Bool.eq_false_iff.mpr hh
    · intro h line hline
      rw [if_neg]
      rw [h line hline]
      simp
  · intro h
    have hA : tplA = lc "<!DOCTYPE html>\n<html lang=\"en\">\n<head>\n    <meta charset=\"UTF-8\">\n    <meta name=\"viewport\" content=\"width=device-width, initial-scale=1.0\">\n    " ++ lc "<title>" := by decide
    have hB : tplB = lc "</title>" ++ lc "\n    " := by decide
    have hT : lc "<title>Static Site</title>" =
        lc "<title>" ++ lc "Static Site" ++ lc "</title>" := by decide
    unfold generate_html
    rw [h]
    refine ⟨lc "<!DOCTYPE html>\n<html lang=\"en\">\n<head>\n    <meta charset=\"UTF-8\">\n    <meta name=\"viewport\" content=\"width=device-width, initial-scale=1.0\">\n    ",
      lc "\n    " ++ favicon_link urlenc favicon ++ tplC ++
        css_variables theme accent ++ tplD ++ font ++ tplE ++ font_size ++ tplF ++
        theme_script theme accent accent_light accent_dark ++ tplG ++
        sanitize_html (render markdown) ++ tplH, ?_⟩
    rw [hT, hA, hB]
    simp [List.append_assoc, Option.getD]

theorem c6_witness :
    extract_title (lc "Intro\n# Title\nBody") = some (lc "Title") ∧
    extract_title (lc "no heading") = none ∧
    lc "<title>Static Site</title>" <:+:
      generate_html id id (lc "no heading") (lc "16px") (lc "serif")
        (lc "light") (lc "#36c") none none none := by
  refine ⟨?_, ?_, ?_⟩
  · exact ((c6_extract_title id id (lc "Intro\n# Title\nBody") [] [] [] []
      none none none).1 (lc "Title")).mpr
      ⟨[lc "Intro"], lc "# Title", [lc "Body"], by decide, by decide, by decide,
        by decide⟩
  · exact ((c6_extract_title id id (lc "no heading") [] [] [] []
      none none none).2.1).mpr (by decide)
  · exact (c6_extract_title id id (lc "no heading") (lc "16px") (lc "serif")
      (lc "light") (lc "#36c") none none none).2.2 (by decide)

/-! ## Heading repair (C7) -/

/-- C7 counterexample: a line whose trimmed form is a single `#` with nothing
after it is left unchanged by the heading repair (the source requires the
trimmed length to exceed one), so no space is inserted. -/
theorem c7_counterexample :
    unescape_newlines (lc "#") = lc "#" ∧
    fixHeading (lc "#") = lc "#" ∧ lc "#" ≠ lc "# " := by decide

/-- C7 (amended): every line whose start-trimmed form has length greater than
one and starts with a run of `#` not immediately followed by a space is
rewritten to the same-length `#` run, exactly one space, and the start-trimmed
remainder; the run is nonempty. -/
theorem c7_heading_repair (line : L)
    (h1 : leads (lc "#") (line.dropWhile isWS) = true)
    (h2 : leads (lc "# ") (line.dropWhile isWS) = false)
    (h3 : 1 < (line.dropWhile isWS).length) :
    fixHeading line =
      List.replicate
          (((line.dropWhile isWS).takeWhile (fun c => c == '#')).length) '#' ++
        lc " " ++
        (List.drop (((line.dropWhile isWS).takeWhile (fun c => c == '#')).length)
          (line.dropWhile isWS)).dropWhile isWS ∧
    1 ≤ ((line.dropWhile isWS).takeWhile (fun c => c == '#')).length := by
  have hlc : lc "#" = ['#'] := by decide
  have hcond : (leads (lc "#") (line.dropWhile isWS) &&
      !leads (lc "# ") (line.dropWhile isWS) &&
      decide (1 < (line.dropWhile isWS).length)) = true := by
    rw [h1, h2, decide_eq_true h3]
    rfl
  have hlvl : 1 ≤ ((line.dropWhile isWS).takeWhile (fun c => c == '#')).length := by
    rcases leads_iff.mp h1 with ⟨u, hu⟩
    rw [hlc] at hu
    rw [← hu]
    simp [List.singleton_append, List.takeWhile_cons]
  have hrep : lc "#" ++
      List.replicate
        ((((line.dropWhile isWS).takeWhile (fun c => c == '#')).length) - 1) '#' =
      List.replicate
        (((line.dropWhile isWS).takeWhile (fun c => c == '#')).length) '#' := by
    rcases Nat.exists_eq_add_of_le hlvl with ⟨m, hm⟩
    have hm' : ((line.dropWhile isWS).takeWhile (fun c => c == '#')).length =
        m + 1 := by omega
    rw [hlc, hm']
    simp [List.replicate_succ]
  refine ⟨?_, hlvl⟩
  simp only [fixHeading]
  rw [if_pos hcond, ← hrep]

theorem c7_witness :
    fixHeading (lc "##NoSpace") = lc "## NoSpace" ∧
    unescape_newlines (lc "##NoSpace") = lc "## NoSpace" :=
  ⟨(c7_heading_repair (lc "##NoSpace") (by decide) (by decide)
      (by decide)).1.trans (by decide),
    by decide⟩

/-! ## Escape-sequence order (C8) -/

/-- C8: the replaces run in the specified order: the two-character escapes
become control characters first, the double backslash collapses afterwards
(so a backslash freed by step 1 is not re-interpreted), and one adjacent
space on each side of a real newline is stripped; in particular the
8-character input `# T\n\nP` (with literal backslashes) yields `# T`,
newline, newline, `P`. -/
theorem c8_unescape_order :
    unescape_newlines (lc "# T\\n\\nP") = lc "# T\n\nP" ∧
    repPhase (lc "x\\ty\\rz") = lc "x\ty\rz" ∧
    unescape_newlines (lc "\\\\n") = lc "\\" ∧
    repPhase (lc "a \\n b") = lc "a\nb" := by decide

theorem mapM_of_eq_some (f : L → Option L) (g : L → L)
    (hf : ∀ l, f l = some (g l)) :
    ∀ ls : List L, ls.mapM f = some (ls.map g) := by
  intro ls
  rw [← List.mapM'_eq_mapM]
  induction ls with
  | nil => rfl
  | cons a as ih => simp [List.mapM', hf a, ih]

theorem fixHeadingChecked_eq (line : L) :
    fixHeadingChecked line = some (fixHeading line) := by
  by_cases hcond : (leads (lc "#") (line.dropWhile isWS) &&
      !leads (lc "# ") (line.dropWhile isWS) &&
      decide (1 < (line.dropWhile isWS).length)) = true
  · have h1 : leads (lc "#") (line.dropWhile isWS) = true := by
      rcases Bool.and_eq_true _ _ |>.mp hcond with ⟨h12, -⟩
      exact (Bool.and_eq_true _ _ |>.mp h12).1
    have hlvl : 1 ≤ ((line.dropWhile isWS).takeWhile (fun c => c == '#')).length := by
      have hlc : lc "#" = ['#'] := by decide
      rcases leads_iff.mp h1 with ⟨u, hu⟩
      rw [hlc] at hu
      rw [← hu]
      simp [List.singleton_append, List.takeWhile_cons]
    have hle : ((line.dropWhile isWS).takeWhile (fun c => c == '#')).length ≤
        (line.dropWhile isWS).length :=
      (List.takeWhile_prefix _).length_le
    simp only [fixHeadingChecked, fixHeading]
    rw [if_pos hcond, if_pos hcond, if_pos ⟨hlvl, hle⟩]
  · simp only [fixHeadingChecked, fixHeading]
    rw [if_neg hcond, if_neg hcond]

/-- C9: the escape-normaliser runs all its guarded partial operations
successfully on every input (no panic), and the validator always returns a
value: acceptance or its invalid-color error. -/
theorem c9_totality :
    (∀ s, unescape_newlinesChecked s = some (unescape_newlines s)) ∧
    (∀ (lower : L → L) (color : L), validate_color lower color = Except.ok () ∨
      ∃ e, validate_color lower color = Except.error e) := by
  constructor
  · intro s
    unfold unescape_newlinesChecked unescape_newlines
    rw [mapM_of_eq_some fixHeadingChecked fixHeading fixHeadingChecked_eq]
    rfl
  · intro lower color
    cases h : validate_color lower color with
    | ok u => left; cases u; rfl
    | error e => right; exact ⟨e, rfl⟩

/-! ## Trailing newline (C10) -/

theorem mem_of_getLast_eq {α : Type} {l : List α} {a : α}
    (h : l.getLast? = some a) : a ∈ l := by
  rcases List.getLast?_eq_some_iff.mp h with ⟨l₀, rfl⟩
  simp

theorem splitNl_ne (t : L) : splitNl t ≠ [] := by
  cases t with
  | nil => simp [splitNl]
  | cons c cs =>
    simp only [splitNl]
    by_cases hc : c = '\n'
    · rw [if_pos hc]
      simp
    · rw [if_neg hc]
      cases splitNl cs <;> simp

theorem splitNl_free : ∀ (t : L) (p : L), p ∈ splitNl t → '\n' ∉ p := by
  intro t
  induction t with
  | nil =>
    intro p hp
    simp [splitNl] at hp
    subst hp
    simp
  | cons c cs ih =>
    intro p hp
    simp only [splitNl] at hp
    by_cases hc : c = '\n'
    · rw [if_pos hc] at hp
      rcases List.mem_cons.mp hp with rfl | hp2
      · simp
      · exact ih p hp2
    · rw [if_neg hc] at hp
      cases hsp : splitNl cs with
      | nil => exact absurd hsp (splitNl_ne cs)
      | cons d ds =>
        simp only [hsp] at hp
        rcases List.mem_cons.mp hp with rfl | hp2
        · intro hmem
          rcases List.mem_cons.mp hmem with h1 | h2
          · exact hc h1.symm
          · exact ih d (by rw [hsp]; exact List.mem_cons_self d ds) h2
        · exact ih p (by rw [hsp]; exact List.mem_cons_of_mem d hp2)

theorem splitNl_join : ∀ t : L, jn (lc "\n") (splitNl t) = t := by
  have hnl : lc "\n" = ['\n'] := by decide
  intro t
  induction t with
  | nil => rfl
  | cons c cs ih =>
    simp only [splitNl]
    by_cases hc : c = '\n'
    · rw [if_pos hc, jn_cons_ne (splitNl_ne cs), ih, hnl, hc]
      rfl
    · rw [if_neg hc]
      cases hsp : splitNl cs with
      | nil => exact absurd hsp (splitNl_ne cs)
      | cons d ds =>
        rw [hsp] at ih
        cases ds with
        | nil =>
          simp only [jn] at ih ⊢
          rw [ih]
        | cons e es =>
          rw [jn_cons₂]
          rw [jn_cons₂] at ih
          rw [List.cons_append, List.cons_append, ih]

theorem stripCr_eq_nil (m : L) : stripCr m = [] ↔ m = [] ∨ m = ['\r'] := by
  constructor
  · intro h
    unfold stripCr at h
    by_cases hl : m.getLast? = some '\r'
    · rw [if_pos hl] at h
      rcases m with _ | ⟨a, _ | ⟨b, r⟩⟩
      · exact Or.inl rfl
      · right
        simp at hl
        rw [hl]
      · exfalso
        have h2 := congrArg List.length h
        rw [List.length_dropLast] at h2
        simp only [List.length_cons, List.length_nil] at h2
        omega
    · rw [if_neg hl] at h
      exact Or.inl h
  · rintro (rfl | rfl) <;> decide

theorem stripCr_free {m : L} (h : '\n' ∉ m) : '\n' ∉ stripCr m := by
  unfold stripCr
  split
  · intro hmem
    exact h ((List.dropLast_sublist m).subset hmem)
  · exact h

theorem fixHeading_eq_nil (l : L) : fixHeading l = [] ↔ l = [] := by
  constructor
  · intro h
    simp only [fixHeading] at h
    by_cases hcond : (leads (lc "#") (l.dropWhile isWS) &&
        !leads (lc "# ") (l.dropWhile isWS) &&
        decide (1 < (l.dropWhile isWS).length)) = true
    · rw [if_pos hcond] at h
      rcases List.append_eq_nil.mp h with ⟨h2, -⟩
      rcases List.append_eq_nil.mp h2 with ⟨h3, -⟩
      rcases List.append_eq_nil.mp h3 with ⟨h4, -⟩
      exact absurd h4 (by decide)
    · rw [if_neg hcond] at h
      exact h
  · rintro rfl
    decide

theorem fixHeading_free {l : L} (h : '\n' ∉ l) : '\n' ∉ fixHeading l := by
  simp only [fixHeading]
  split
  · intro hmem
    have hsub : '\n' ∉ l.dropWhile isWS :=
      fun hx => h ((List.dropWhile_suffix isWS).subset hx)
    simp only [List.mem_append] at hmem
    rcases hmem with ((h1 | h2) | h3) | h4
    · exact absurd h1 (by decide)
    · exact absurd (List.eq_of_mem_replicate h2) (by decide)
    · exact absurd h3 (by decide)
    · exact hsub ((List.drop_suffix _ _).subset ((List.dropWhile_suffix isWS).subset h4))
  · exact h

theorem jn_ends :
    ∀ ls : List L, ls ≠ [] → (∀ l ∈ ls, '\n' ∉ l) →
      ((jn (lc "\n") ls).getLast? = some '\n' ↔
        ls.getLast? = some [] ∧ 2 ≤ ls.length) := by
  have hnl : lc "\n" = ['\n'] := by decide
  intro ls
  induction ls with
  | nil => intro h _; exact absurd rfl h
  | cons x ys ih =>
    intro _ hfree
    cases ys with
    | nil =>
      simp only [jn]
      constructor
      · intro h
        exact absurd (mem_of_getLast_eq h) (hfree x (List.mem_cons_self x []))
      · rintro ⟨-, h2⟩
        simp at h2
    | cons y zs =>
      rw [jn_cons₂, List.append_assoc]
      have hne2 : lc "\n" ++ jn (lc "\n") (y :: zs) ≠ [] := by
        rw [hnl]
        simp
      rw [List.getLast?_append_of_ne_nil _ hne2]
      cases zs with
      | nil =>
        simp only [jn]
        by_cases hy : y = []
        · subst hy
          rw [hnl]
          constructor
          · intro _
            refine ⟨?_, by simp⟩
            rw [List.getLast?_cons_cons]
            rfl
          · intro _
            decide
        · rw [List.getLast?_append_of_ne_nil _ hy]
          constructor
          · intro h
            exact absurd (mem_of_getLast_eq h) (hfree y (by simp))
          · rintro ⟨h1, -⟩
            rw [List.getLast?_cons_cons] at h1
            simp at h1
            exact absurd h1 hy
      | cons z ws =>
        have hjne : jn (lc "\n") (y :: z :: ws) ≠ [] := by
          rw [jn_cons₂, hnl]
          cases y <;> simp
        rw [List.getLast?_append_of_ne_nil _ hjne]
        rw [ih (by simp) (fun l hl => hfree l (List.mem_cons_of_mem x hl))]
        simp only [List.getLast?_cons_cons, List.length_cons]
        constructor
        · rintro ⟨h1, -⟩
          exact ⟨h1, by omega⟩
        · rintro ⟨h1, -⟩
          exact ⟨h1, by omega⟩

theorem append_nl_eq_single (p q : L) :
    p ++ '\n' :: q = ['\n'] ↔ p = [] ∧ q = [] := by
  constructor
  · intro h
    have hl := congrArg List.length h
    simp only [List.length_append, List.length_cons, List.length_nil] at hl
    have hp : p = [] := List.length_eq_zero.mp (by omega)
    subst hp
    simp at h
    exact ⟨rfl, h⟩
  · rintro ⟨rfl, rfl⟩
    rfl

theorem append_nl_eq_crnl (p q : L) :
    p ++ '\n' :: q = ['\r', '\n'] ↔ p = ['\r'] ∧ q = [] := by
  constructor
  · intro h
    have hl := congrArg List.length h
    simp only [List.length_append, List.length_cons, List.length_nil] at hl
    rcases p with _ | ⟨a, _ | ⟨b, bs⟩⟩
    · exfalso
      rw [List.nil_append] at h
      injection h with h1 h2
      exact absurd h1 (by decide)
    · simp only [List.cons_append, List.nil_append] at h
      injection h with h1 h2
      injection h2 with h3 h4
      exact ⟨by rw [h1], h4⟩
    · exfalso
      simp only [List.length_cons] at hl
      omega
  · rintro ⟨rfl, rfl⟩
    rfl

theorem endQ_iff_suffix : ∀ t : L,
    endQ (splitNl t) ↔ (lc "\n\n" <:+ t ∨ lc "\n\r\n" <:+ t) := by
  have hsp1 : splitNl ['\n'] = [[], []] := by decide
  have hsp2 : splitNl ['\r', '\n'] = [['\r'], []] := by decide
  intro t
  rw [show lc "\n\n" = ['\n', '\n'] from by decide,
    show lc "\n\r\n" = ['\n', '\r', '\n'] from by decide]
  induction t with
  | nil =>
    constructor
    · rintro ⟨-, habs, -⟩
      simp [splitNl] at habs
    · rintro (hs | hs) <;> (rw [List.suffix_nil] at hs; exact absurd hs (by decide))
  | cons c cs ih =>
    rw [List.suffix_cons_iff, List.suffix_cons_iff]
    by_cases hc : c = '\n'
    · subst hc
      rw [show splitNl ('\n' :: cs) = [] :: splitNl cs from by simp [splitNl]]
      rcases hsp : splitNl cs with _ | ⟨p, _ | ⟨q, _ | ⟨r, rest⟩⟩⟩
      · exact absurd hsp (splitNl_ne cs)
      · rw [hsp] at ih
        constructor
        · rintro ⟨-, habs, -⟩
          simp at habs
        · rintro ((he | hs) | (he | hs))
          · have hcs : cs = ['\n'] := by injection he with h1 h2; exact h2.symm
            rw [hcs, hsp1] at hsp
            simp at hsp
          · rcases ih.mpr (Or.inl hs) with ⟨-, habs, -⟩
            simp at habs
          · have hcs : cs = ['\r', '\n'] := by injection he with h1 h2; exact h2.symm
            rw [hcs, hsp2] at hsp
            simp at hsp
          · rcases ih.mpr (Or.inr hs) with ⟨-, habs, -⟩
            simp at habs
      · rw [hsp] at ih
        have hcs : cs = p ++ '\n' :: q := by
          have hj := splitNl_join cs
          rw [hsp] at hj
          rw [← hj, jn_cons₂, show lc "\n" = ['\n'] from by decide,
            List.append_assoc]
          rfl
        constructor
        · rintro ⟨h1, -, h3⟩
          simp only [List.getLast?_cons_cons] at h1
          simp at h1
          simp only [List.dropLast_cons₂, List.dropLast_single,
            List.getLast?_cons_cons] at h3
          simp at h3
          subst h1
          rcases h3 with hp | hp
          · exact Or.inl (Or.inl (by rw [hcs, hp]; rfl))
          · exact Or.inr (Or.inl (by rw [hcs, hp]; rfl))
        · rintro ((he | hs) | (he | hs))
          · have hq : cs = ['\n'] := by injection he with h1 h2; exact h2.symm
            rw [hq] at hcs
            rcases (append_nl_eq_single p q).mp hcs.symm with ⟨rfl, rfl⟩
            exact ⟨by decide, by decide, by decide⟩
          · rcases ih.mpr (Or.inl hs) with ⟨-, habs, -⟩
            simp at habs
          · have hq : cs = ['\r', '\n'] := by injection he with h1 h2; exact h2.symm
            rw [hq] at hcs
            rcases (append_nl_eq_crnl p q).mp hcs.symm with ⟨rfl, rfl⟩
            exact ⟨by decide, by decide, by decide⟩
          · rcases ih.mpr (Or.inr hs) with ⟨-, habs, -⟩
            simp at habs
      · rw [hsp] at ih
        constructor
        · rintro ⟨h1, -, h3⟩
          refine (ih.mp ⟨?_, ?_, ?_⟩).elim (fun hs => Or.inl (Or.inr hs))
            (fun hs => Or.inr (Or.inr hs))
          · simpa only [List.getLast?_cons_cons] using h1
          · simp only [List.dropLast_cons₂, List.length_cons]
            omega
          · simpa only [List.dropLast_cons₂, List.getLast?_cons_cons] using h3
        · rintro ((he | hs) | (he | hs))
          · have hq : cs = ['\n'] := by injection he with h1 h2; exact h2.symm
            rw [hq, hsp1] at hsp
            have h2 := congrArg List.length hsp
            simp at h2
          · rcases ih.mpr (Or.inl hs) with ⟨h1, h2, h3⟩
            refine ⟨by simpa only [List.getLast?_cons_cons] using h1, ?_,
              by simpa only [List.dropLast_cons₂, List.getLast?_cons_cons] using h3⟩
            simp only [List.dropLast_cons₂, List.length_cons]
            omega
          · have hq : cs = ['\r', '\n'] := by injection he with h1 h2; exact h2.symm
            rw [hq, hsp2] at hsp
            have h2 := congrArg List.length hsp
            simp at h2
          · rcases ih.mpr (Or.inr hs) with ⟨h1, h2, h3⟩
            refine ⟨by simpa only [List.getLast?_cons_cons] using h1, ?_,
              by simpa only [List.dropLast_cons₂, List.getLast?_cons_cons] using h3⟩
            simp only [List.dropLast_cons₂, List.length_cons]
            omega
    · rcases hsp : splitNl cs with _ | ⟨d, ds⟩
      · exact absurd hsp (splitNl_ne cs)
      · rw [show splitNl (c :: cs) = (c :: d) :: ds from by simp [splitNl, hc, hsp]]
        rw [hsp] at ih
        have hne1 : ¬ (['\n', '\n'] = c :: cs) := fun he => by
          injection he with h1 h2
          exact hc h1.symm
        have hne2 : ¬ (['\n', '\r', '\n'] = c :: cs) := fun he => by
          injection he with h1 h2
          exact hc h1.symm
        rcases ds with _ | ⟨e, _ | ⟨f, rest⟩⟩
        · constructor
          · rintro ⟨h1, -, -⟩
            simp at h1
          · rintro ((he | hs) | (he | hs))
            · exact absurd he hne1
            · rcases ih.mpr (Or.inl hs) with ⟨-, habs, -⟩
              simp at habs
            · exact absurd he hne2
            · rcases ih.mpr (Or.inr hs) with ⟨-, habs, -⟩
              simp at habs
        · constructor
          · rintro ⟨-, habs, -⟩
            simp at habs
          · rintro ((he | hs) | (he | hs))
            · exact absurd he hne1
            · rcases ih.mpr (Or.inl hs) with ⟨-, habs, -⟩
              simp at habs
            · exact absurd he hne2
            · rcases ih.mpr (Or.inr hs) with ⟨-, habs, -⟩
              simp at habs
        · have hiff : endQ ((c :: d) :: e :: f :: rest) ↔ endQ (d :: e :: f :: rest) := by
            unfold endQ
            simp only [List.getLast?_cons_cons, List.dropLast_cons₂, List.length_cons]
          rw [hiff, ih]
          constructor
          · rintro (hs | hs)
            · exact Or.inl (Or.inr hs)
            · exact Or.inr (Or.inr hs)
          · rintro ((he | hs) | (he | hs))
            · exact absurd he hne1
            · exact Or.inl hs
            · exact absurd he hne2
            · exact Or.inr hs

theorem unescape_ends (t : L) :
    (jn (lc "\n") ((rustLines t).map fixHeading)).getLast? = some '\n' ↔
      endQ (splitNl t) := by
  have hfree : ∀ l ∈ (rustLines t).map fixHeading, '\n' ∉ l := by
    intro l hl
    rcases List.mem_map.mp hl with ⟨m, hm, rfl⟩
    apply fixHeading_free
    simp only [rustLines] at hm
    rcases List.mem_append.mp hm with hm1 | hm2
    · rcases List.mem_map.mp hm1 with ⟨m₀, hm₀, rfl⟩
      exact stripCr_free (splitNl_free t m₀ ((List.dropLast_sublist _).subset hm₀))
    · rcases hgl : (splitNl t).getLast? with - | q
      · rw [hgl] at hm2
        simp at hm2
      · rw [hgl] at hm2
        rcases q with _ | ⟨a, q₀⟩
        · simp at hm2
        · simp at hm2
          subst hm2
          exact splitNl_free t _ (mem_of_getLast_eq hgl)
  rcases hgl : (splitNl t).getLast? with - | q
  · exact absurd (List.getLast?_eq_none_iff.mp hgl) (splitNl_ne t)
  · rcases q with _ | ⟨a, q₀⟩
    · have hr : rustLines t = (splitNl t).dropLast.map stripCr := by
        simp only [rustLines]
        rw [hgl]
        simp
      rw [hr]
      rcases hdl : (splitNl t).dropLast with _ | ⟨m, ms⟩
      · constructor
        · intro habs
          simp [jn] at habs
        · rintro ⟨-, habs, -⟩
          rw [hdl] at habs
          simp at habs
      · rw [jn_ends _ (by simp) (by rw [← hdl, ← hr]; exact hfree)]
        rcases hml : (m :: ms).getLast? with - | mlast
        · simp at hml
        · simp only [List.getLast?_map, hml, Option.map_some', List.length_map]
          constructor
          · rintro ⟨h1, h2⟩
            have h1a := Option.some.inj h1
            have hml2 := (stripCr_eq_nil _).mp ((fixHeading_eq_nil _).mp h1a)
            refine ⟨by rw [hgl], by rw [hdl]; exact h2, ?_⟩
            rw [hdl, hml]
            rcases hml2 with h | h
            · exact Or.inl (by rw [h])
            · exact Or.inr (by rw [h])
          · rintro ⟨-, h2, h3⟩
            rw [hdl] at h2
            rw [hdl, hml] at h3
            refine ⟨?_, h2⟩
            have hml2 : mlast = [] ∨ mlast = ['\r'] := by
              rcases h3 with h | h
              · exact Or.inl (Option.some.inj h)
              · exact Or.inr (Option.some.inj h)
            rcases hml2 with rfl | rfl <;> decide
    · have hr : rustLines t = (splitNl t).dropLast.map stripCr ++ [a :: q₀] := by
        simp only [rustLines]
        rw [hgl]
      rw [hr, List.map_append]
      rw [jn_ends _ (by simp) (by rw [← List.map_append, ← hr]; exact hfree)]
      constructor
      · rintro ⟨h1, -⟩
        rw [List.getLast?_append_of_ne_nil _ (by simp)] at h1
        simp at h1
        have h2 := (fixHeading_eq_nil _).mp h1
        exact absurd h2 (by simp)
      · rintro ⟨h1, -, -⟩
        rw [hgl] at h1
        simp at h1

/-- C10 counterexample: an input whose replace phase ends in two real
newlines produces output ending in a newline. -/
theorem c10_counterexample :
    (unescape_newlines (lc "a\n\n")).getLast? = some '\n' := by decide

/-- C10 (amended): the output of `unescape_newlines` ends with a newline
exactly when the text after the replace phase ends with an empty line (or a
line holding only a carriage return) followed by a final newline, that is,
ends in the suffix newline-newline or newline-CR-newline; in every other
case, including a single trailing newline, the trailing newline is dropped
by the split-and-rejoin phase. -/
theorem c10_trailing_newline (s : L) :
    (unescape_newlines s).getLast? = some '\n' ↔
      (lc "\n\n" <:+ repPhase s ∨ lc "\n\r\n" <:+ repPhase s) := by
  unfold unescape_newlines
  rw [unescape_ends (repPhase s), endQ_iff_suffix]

end Statgen
